import Mathlib

/-!
Verification of the OS-NVR core against its specification.

Shallow embedding of the Go sources:
 - `pkg/ffmpeg/ffmpeg.go` (HLS playlist parsing, keyframe waiting, polygon
   masks, subprocess exit mapping),
 - `addons/motion/backend.go` (decoder stderr parsing, trigger rule),
 - `pkg/video/rtsp/gortsplib/pkg/base/header.go` (RTSP header read/write),
 - `pkg/log` (log bus dispatcher),
 - `pkg/video/rtsp/gortsplib/pkg/aac/adts.go` (ADTS decode/encode).

Bytes are modelled as `Nat` (values 0..255), Go strings over ASCII text as
`List Char`, Go `time.Duration` as `Int` nanoseconds, and Go `float64`
scores as exact rationals `ℚ` (decimal strings parse exactly; IEEE rounding
is idealized away).
-/

/-! ## Section 1: ffmpeg.go — HLS playlist durations (getSegmentDuration) -/

/-- ASCII/unicode whitespace recognized by Go `strings.TrimSpace`
(restricted to the ASCII range, which is all that appears in playlists). -/
def goIsSpace (c : Char) : Bool :=
  c = ' ' || c = '\t' || c = '\n' || c = '\r' ||
  c = (Char.ofNat 11) || c = (Char.ofNat 12)

/-- Go `strings.TrimSpace`: drop whitespace from both ends. -/
def goTrimSpace (s : List Char) : List Char :=
  ((s.dropWhile goIsSpace).reverse.dropWhile goIsSpace).reverse

/-- Go `strings.Split(s, "\n")`. -/
def splitNl : List Char → List (List Char)
  | [] => [[]]
  | c :: rest =>
    if c = '\n' then [] :: splitNl rest
    else
      match splitNl rest with
      | l :: ls => (c :: l) :: ls
      | [] => [[c]]

/-- Decimal digit value of an ASCII digit character. -/
def digitVal (c : Char) : Nat := c.toNat - 48

/-- Value of a list of ASCII digit characters read as a decimal number. -/
def digitsVal (s : List Char) : Nat := s.foldl (fun a c => a * 10 + digitVal c) 0

/-- Go `strconv.Atoi` (overflow ignored): optional sign followed by at
least one decimal digit. -/
def atoiInt (s : List Char) : Option Int :=
  let digitsOnly : List Char → Option Nat := fun t =>
    if t ≠ [] ∧ t.all Char.isDigit then some (digitsVal t) else none
  if s.head? = some '+' then (digitsOnly s.tail).map Int.ofNat
  else if s.head? = some '-' then (digitsOnly s.tail).map (fun n => -(n : Int))
  else (digitsOnly s).map Int.ofNat

/-- `parseDurations` from `pkg/ffmpeg/ffmpeg.go`: keep the lines of the
trimmed playlist that are exactly 17 bytes long and start with
`#EXTINF:`, extracting bytes 8..12 (e.g. `4.250` out of
`#EXTINF:4.250000,`). -/
def parseDurations (m3u8 : List Char) : List (List Char) :=
  (splitNl (goTrimSpace m3u8)).filterMap fun line =>
    if line.length = 17 ∧ line.take 8 = "#EXTINF:".data
    then some ((line.drop 8).take 5) else none

/-- Error results of the ffmpeg helpers (each Go `error` value is a
distinct constructor). -/
inductive FfErr
  | keyFrameTimeout
  | watcherFailed (code : Nat)
  | invalidFile
  | atoiFailed
  deriving DecidableEq, Repr

/-- The summation loop of `getSegmentDuration`: strip the dots
(`strings.ReplaceAll(d, ".", "")`), `strconv.Atoi` each entry, sum.
The Go loop walks indices `len-n .. len-1`; the caller passes exactly
that suffix. -/
def sumDurations : List (List Char) → Option Int
  | [] => some 0
  | d :: rest =>
    match atoiInt (d.filter (fun c => c ≠ '.')), sumDurations rest with
    | some v, some acc => some (v + acc)
    | _, _ => none

/-- `getSegmentDuration` from `pkg/ffmpeg/ffmpeg.go`, over the playlist
file's content. Result is a Go `time.Duration`, i.e. nanoseconds:
`time.Duration(totalDuration) * time.Millisecond`. -/
def getSegmentDuration (content : List Char) (nSegments : Nat) : Except FfErr Int :=
  let durations := parseDurations content
  if durations.length < nSegments then .error .invalidFile
  else
    match sumDurations (durations.drop (durations.length - nSegments)) with
    | some total => .ok (total * 1000000)
    | none => .error .atoiFailed

/-- The four ways the `select` in `WaitForKeyframe` can be unblocked:
a watcher event (the playlist changed; its current content attached),
a watcher error, the 30-second timer, or context cancellation. -/
inductive WaitEvent
  | update (content : List Char)
  | watcherError (code : Nat)
  | timeout
  | ctxDone
  deriving DecidableEq

/-- The 30-second timer of `WaitForKeyframe`. -/
def keyframeTimeoutSeconds : Nat := 30

/-- `WaitForKeyframe` from `pkg/ffmpeg/ffmpeg.go`, as a function of the
first `select` case to fire: `watcher.Events` returns
`getSegmentDuration`, `watcher.Errors` returns the error,
`time.After(30s)` returns `ErrKeyFrameTimeout`, `ctx.Done()` returns
`(0, nil)`. -/
def waitForKeyframe (nSegments : Nat) (ev : WaitEvent) : Int × Option FfErr :=
  match ev with
  | .update content =>
    match getSegmentDuration content nSegments with
    | .ok d => (d, none)
    | .error e => (0, some e)
  | .watcherError code => (0, some (.watcherFailed code))
  | .timeout => (0, some .keyFrameTimeout)
  | .ctxDone => (0, none)

/-- Spec-side meaning of one `#EXTINF` entry printed with 6-digit
fractional seconds: for a line `#EXTINF:d.ffffff,` return the duration in
microseconds; `none` when the line is not of that exact form. -/
def extinfMicros (line : List Char) : Option Nat :=
  if line.take 8 = "#EXTINF:".data ∧ line.length = 17 ∧
     (line.get? 8).any Char.isDigit ∧ line.get? 9 = some '.' ∧
     ((line.drop 10).take 6).all Char.isDigit ∧ line.get? 16 = some ','
  then some (digitVal ((line.drop 8).headD '0') * 1000000 +
             digitsVal ((line.drop 10).take 6))
  else none

/-- Spec-side list of entry durations (µs) of a playlist. -/
def playlistMicros (content : List Char) : List Nat :=
  (splitNl (goTrimSpace content)).filterMap extinfMicros


/-- Spec-side well-formedness of one `#EXTINF` entry as the claim reads
it: the line is exactly `#EXTINF:d.ffffff,` with decimal digits. -/
def isExtinf6 (line : List Char) : Prop :=
  ∃ (d f1 f2 f3 f4 f5 f6 : Char),
    line = "#EXTINF:".data ++ [d, '.', f1, f2, f3, f4, f5, f6, ','] ∧
    d.isDigit = true ∧ f1.isDigit = true ∧ f2.isDigit = true ∧ f3.isDigit = true ∧
    f4.isDigit = true ∧ f5.isDigit = true ∧ f6.isDigit = true

/-! ## Section 2: ffmpeg.go — process exit mapping (process.Start) -/

/-- The result of `cmd.Wait()` as a function of the child's exit status:
`nil` for status 0, an `ExitError` carrying the status otherwise
(modelling `os/exec`; the code compares `err.Error()` with
`"exit status 255"`, which for an `ExitError` holds exactly when the
status is 255). -/
def cmdWaitErr (exitStatus : Nat) : Option Nat :=
  if exitStatus = 0 then none else some exitStatus

/-- The tail of `process.Start` in `pkg/ffmpeg/ffmpeg.go`: a wait error of
"exit status 255" is swallowed (`return nil`), everything else is
returned as-is. -/
def processStartResult (waitErr : Option Nat) : Option Nat :=
  if waitErr = some 255 then none else waitErr

/-! ## Section 3: ffmpeg.go — polygon masks (CreateMask, vertexInsidePoly) -/

/-- `vertexInsidePoly` from `pkg/ffmpeg/ffmpeg.go`. Go's `/` on `int`
truncates toward zero, which is `Int.tdiv`; the `&&` short-circuit keeps
the Go code from dividing by zero when `yi = yj`, and `Int.tdiv _ 0 = 0`
makes the unguarded form agree. State is `(inside, j)` with `j`
starting at `len-1`. -/
def vertexInsidePoly (x y : Int) (poly : List (Int × Int)) : Bool :=
  (List.range poly.length).foldl
    (fun st i =>
      let xi := (poly.getD i (0, 0)).1
      let yi := (poly.getD i (0, 0)).2
      let xj := (poly.getD st.2 (0, 0)).1
      let yj := (poly.getD st.2 (0, 0)).2
      let inside :=
        if (decide (yi > y) != decide (yj > y)) &&
           decide (x < Int.tdiv ((xj - xi) * (y - yi)) (yj - yi) + xi)
        then !st.1 else st.1
      (inside, i))
    (false, poly.length - 1) |>.1

/-- Pixel write on an image modelled as a function from coordinates. -/
def setPixel (img : Nat × Nat → Bool) (px py : Nat) (v : Bool) : Nat × Nat → Bool :=
  fun p => if p = (px, py) then v else img p

/-- `CreateMask` from `pkg/ffmpeg/ffmpeg.go`. The Go loop uses `y` as the
outer variable ranging over `[0,w)` and `x` as the inner variable over
`[0,h)`, and writes `img.Set(y, x, …)` with `vertexInsidePoly(y, x, …)`;
so the first loop variable is the horizontal pixel coordinate and the
second the vertical one, exactly as written here. `true` models alpha
255, `false` alpha 0 (`image.NewAlpha` starts zeroed). -/
def createMask (w h : Nat) (poly : List (Int × Int)) : Nat × Nat → Bool :=
  (List.range w).foldl
    (fun img y =>
      (List.range h).foldl
        (fun img x => setPixel img y x (vertexInsidePoly y x poly))
        img)
    (fun _ => false)

/-- Exact-arithmetic form of the ray-cast crossing comparison
`x < (xj-xi)*(y-yi)/(yj-yi) + xi`: cross-multiplied by `yj-yi` (with the
comparison flipped for a negative denominator), so that it agrees with
the real-number / rational comparison whenever `yj ≠ yi`. -/
def exactCrossingLt (x y xi yi xj yj : Int) : Bool :=
  let denom := yj - yi
  let num := (xj - xi) * (y - yi)
  if denom > 0 then decide ((x - xi) * denom < num)
  else if denom < 0 then decide ((x - xi) * denom > num)
  else false

/-- The standard ray-cast point-in-polygon test stated by the spec, with
the crossing comparison done in exact arithmetic instead of the
repository's truncating integer division. -/
def rayCastInsideSpec (x y : Int) (poly : List (Int × Int)) : Bool :=
  (List.range poly.length).foldl
    (fun st i =>
      let xi := (poly.getD i (0, 0)).1
      let yi := (poly.getD i (0, 0)).2
      let xj := (poly.getD st.2 (0, 0)).1
      let yj := (poly.getD st.2 (0, 0)).2
      let inside :=
        if (decide (yi > y) != decide (yj > y)) && exactCrossingLt x y xi yi xj yj
        then !st.1 else st.1
      (inside, i))
    (false, poly.length - 1) |>.1

/-! ## Section 4: addons/motion/backend.go — stderr parser and trigger rule -/

/-- The characters of a string literal. -/
def strChars (s : String) : List Char := s.data

/-- RE2 `\w` (ASCII word character). -/
def isWordCh (c : Char) : Bool := c.isAlphanum || c = '_'

/-- `startsWithL needle hay`: `hay` begins with `needle`. -/
def startsWithL : List Char → List Char → Bool
  | [], _ => true
  | _ :: _, [] => false
  | a :: as, b :: bs => a = b && startsWithL as bs

/-- `hasSub needle hay`: `needle` occurs as a contiguous substring of
`hay` (Go `strings.Contains(hay, needle)`). -/
def hasSub (needle : List Char) : List Char → Bool
  | [] => startsWithL needle []
  | c :: rest => startsWithL needle (c :: rest) || hasSub needle rest

/-- One attempted match of the tail `lavfi.scene_score=(\d.\d+)` of the
motion regex at a given position: the literal `lavfi`, any non-newline
character (the regex metacharacter `.`), the literal `scene_score=`, then
the capture: a digit, any non-newline character, and a maximal non-empty
run of digits (`\d+` is greedy). Returns the three capture pieces. -/
def tryScoreAt (s : List Char) : Option (Char × Char × List Char) :=
  if startsWithL (strChars "lavfi") s then
    match s.drop 5 with
    | c1 :: rest1 =>
      if c1 = '\n' then none
      else if startsWithL (strChars "scene_score=") rest1 then
        match rest1.drop 12 with
        | d :: c2 :: rest =>
          if d.isDigit ∧ c2 ≠ '\n' then
            match rest.takeWhile Char.isDigit with
            | [] => none
            | ds => some (d, c2, ds)
          else none
        | _ => none
      else none
    | [] => none
  else none

/-- Search for the match of `lavfi.scene_score=(\d.\d+)` chosen by the
greedy `.*` that precedes it: the latest start position that matches
(later positions are preferred, mirroring greedy backtracking). -/
def scoreSearch : List Char → Option (Char × Char × List Char)
  | [] => none
  | c :: rest =>
    match scoreSearch rest with
    | some r => some r
    | none => tryScoreAt (c :: rest)

/-- One attempted match of `\bid=(\d+)\b\n.*lavfi.scene_score=(\d.\d+)`
at a given position, `prevWord` telling whether the preceding character
is a word character (for the `\b`). After `id=`, `\d+` takes a maximal
non-empty digit run, the `\b\n` forces the next character to be a
newline, and the rest of the match is confined to the following line
(none of `.`, `\d` and the literals can cross `\n`). -/
def tryIdAt (prevWord : Bool) (s : List Char) : Option (List Char × (Char × Char × List Char)) :=
  if prevWord then none
  else if startsWithL (strChars "id=") s then
    let rest := s.drop 3
    match rest.takeWhile Char.isDigit, rest.dropWhile Char.isDigit with
    | [], _ => none
    | ds, '\n' :: after =>
      match scoreSearch (after.takeWhile (fun c => c ≠ '\n')) with
      | some cap => some (ds, cap)
      | none => none
    | _, _ => none
  else none

/-- Leftmost search of the whole motion regex: try each start position
from the left, tracking the word-character flag for `\b`. -/
def findIdScore : Bool → List Char → Option (List Char × (Char × Char × List Char))
  | _, [] => none
  | pw, c :: rest =>
    match tryIdAt pw (c :: rest) with
    | some r => some r
    | none => findIdScore (isWordCh c) rest

/-- Go `strconv.ParseFloat` restricted to the capture shapes `\d.\d+`
can produce: `d.ffff…` (decimal), all-digits (integer), and `dEnn`/`denn`
(exponent). Other middle characters make `ParseFloat` fail. The IEEE
float64 value is idealized as the exact decimal rational. -/
def parseFloatQ : List Char → Option ℚ
  | d :: '.' :: fr =>
    if d.isDigit ∧ fr ≠ [] ∧ fr.all Char.isDigit
    then some ((digitVal d : ℚ) + (digitsVal fr : ℚ) / ((10 : ℚ) ^ fr.length))
    else none
  | d :: 'e' :: fr =>
    if d.isDigit ∧ fr ≠ [] ∧ fr.all Char.isDigit
    then some ((digitVal d : ℚ) * ((10 : ℚ) ^ digitsVal fr))
    else none
  | d :: 'E' :: fr =>
    if d.isDigit ∧ fr ≠ [] ∧ fr.all Char.isDigit
    then some ((digitVal d : ℚ) * ((10 : ℚ) ^ digitsVal fr))
    else none
  | s =>
    if s.length ≥ 3 ∧ s.all Char.isDigit then some ((digitsVal s : ℚ)) else none

/-- `parseSegment` from `addons/motion/backend.go`: run the regex
`\bid=(\d+)\b\n.*lavfi.scene_score=(\d.\d+)` on the stitched segment;
on a match, `Atoi` the id and `ParseFloat` the score, returning
`(id, score*100)`; `(0, 0)` otherwise. -/
def parseSegment (segment : List Char) : Nat × ℚ :=
  match findIdScore false segment with
  | none => (0, 0)
  | some (ds, (d, c2, fr)) =>
    match parseFloatQ (d :: c2 :: fr) with
    | none => (0, 0)
    | some q => (digitsVal ds, q * 100)

/-- `parser.parseLine` from `addons/motion/backend.go`: append the line
to the accumulated segment; when the line contains `lavfi.scene_score`,
parse the segment and reset the accumulator to the line. Returns the new
accumulator and the parse result, if any. -/
def parseLine (segment line : List Char) : List Char × Option (Nat × ℚ) :=
  let seg' := segment ++ '\n' :: line
  if hasSub (strChars "lavfi.scene_score") line
  then (line, some (parseSegment seg'))
  else (seg', none)

/-- A motion zone as used by the trigger rule (`zones[id].Threshold`). -/
structure MZone where
  threshold : ℚ
  deriving DecidableEq

/-- A trigger event: `monitor.Event{End: time.Now().UTC().Add(duration)}`,
with times as integer nanoseconds. -/
structure MEvent where
  endTime : Int
  deriving DecidableEq, Repr

/-- The per-segment body of `parseFFmpegOutput`: skip when the score is
0; trigger when `zones[id].Threshold < score`. Go would panic on an id
out of range of `zones`; that case is modelled as no trigger and excluded
by hypothesis in the theorems. -/
def shouldTrigger (zones : List MZone) (idScore : Nat × ℚ) : Bool :=
  if idScore.2 = 0 then false
  else
    match zones.get? idScore.1 with
    | some z => decide (z.threshold < idScore.2)
    | none => false

/-- Processing of one stitched segment: parse it and, when the trigger
rule fires, emit the event `{End: now + duration}` built by
`sendTrigger`. -/
def processSegment (zones : List MZone) (now duration : Int)
    (segment : List Char) : Option MEvent :=
  if shouldTrigger zones (parseSegment segment)
  then some ⟨now + duration⟩ else none

/-! ## Section 5: base/header.go — RTSP header read/write -/

/-- Header keys/values are byte strings, modelled as lists of `Nat`. -/
abbrev Bytes := List Nat

/-- Bytes of a string literal (ASCII). -/
def strBytes (s : String) : Bytes := s.data.map Char.toNat

/-- A Go `Header` map. Go maps are unordered; a header is represented by
its canonical association list, sorted strictly by key. -/
abbrev HeaderA := List (Bytes × List Bytes)

/-- `strings.ToLower` on a byte (ASCII). -/
def lowerByte (b : Nat) : Nat := if 65 ≤ b ∧ b ≤ 90 then b + 32 else b

/-- Valid header-field byte of `net/textproto` (RFC 7230 token chars). -/
def validHeaderByte (b : Nat) : Bool :=
  (48 ≤ b && b ≤ 57) || (65 ≤ b && b ≤ 90) || (97 ≤ b && b ≤ 122) ||
  b ∈ [33, 35, 36, 37, 38, 39, 42, 43, 45, 46, 94, 95, 96, 124, 126]

/-- The canonicalization loop of `net/textproto`: uppercase the first
byte and every byte after a `-` (45), lowercase the rest. -/
def canonLoop : Bool → Bytes → Bytes
  | _, [] => []
  | upper, b :: rest =>
    let b' := if upper then (if 97 ≤ b ∧ b ≤ 122 then b - 32 else b)
              else (if 65 ≤ b ∧ b ≤ 90 then b + 32 else b)
    b' :: canonLoop (b' = 45) rest

/-- `http.CanonicalHeaderKey`: canonicalize if every byte is a valid
header-field byte, otherwise return the key unchanged. -/
def canonicalHeaderKey (k : Bytes) : Bytes :=
  if k.all validHeaderByte then canonLoop true k else k

/-- `headerKeyNormalize` from `base/header.go`: special-case `RTP-Info`,
`WWW-Authenticate` and `CSeq`, otherwise `http.CanonicalHeaderKey`. -/
def headerKeyNormalize (k : Bytes) : Bytes :=
  let l := k.map lowerByte
  if l = strBytes "rtp-info" then strBytes "RTP-Info"
  else if l = strBytes "www-authenticate" then strBytes "WWW-Authenticate"
  else if l = strBytes "cseq" then strBytes "CSeq"
  else canonicalHeaderKey k

/-- Modelled from the spec: `readBytesLimited(rb, delim, n)` is declared
in the gortsplib `base` package but its file is not among the provided
sources; per its call sites ("Header count ≤ 255; key ≤ 512 B; value ≤
2048 B") it reads and returns the bytes up to and including the first
occurrence of `delim`, failing if `delim` does not occur within `n` bytes
or the input ends first. Returns the bytes read and the rest. -/
def readBytesLimited (delim : Nat) : Nat → Bytes → Option (Bytes × Bytes)
  | 0, _ => none
  | _ + 1, [] => none
  | n + 1, b :: rest =>
    if b = delim then some ([b], rest)
    else
      match readBytesLimited delim n rest with
      | some (bs, r) => some (b :: bs, r)
      | none => none

/-- Modelled from the spec: `readNewLine(rb)` (same missing file as
`readBytesLimited`) consumes one byte and fails unless it is `\n`. -/
def readNewLine : Bytes → Option Bytes
  | 10 :: rest => some rest
  | _ => none

/-- The space-skipping loop of `Header.read`: read bytes while they are
spaces, then unread the first non-space (an error at end of input). -/
def skipSpaces (input : Bytes) : Option Bytes :=
  let r := input.dropWhile (fun b => b = 32)
  if r = [] then none else some r

/-- Go `(*h)[key] = append((*h)[key], val)` on the association-list
representation: append to the key's list, or add a new entry at the
end. -/
def insertAppend (h : HeaderA) (k : Bytes) (v : Bytes) : HeaderA :=
  match h with
  | [] => [(k, [v])]
  | (k', vs) :: rest =>
    if k' = k then (k', vs ++ [v]) :: rest else (k', vs) :: insertAppend rest k v

/-- The loop of `Header.read` from `base/header.go`: stop at a `\r\n`
line; otherwise fail once 255 entries were read, else read the key up to
`:` (first byte read separately, then `readBytesLimited(':', 511)`),
normalize it, skip spaces, read the value up to `\r`
(`readBytesLimited('\r', 2048)`), expect `\n`, record the pair, and
continue. Returns the header and the remaining input. -/
def headerReadLoop (count : Nat) (acc : HeaderA) (input : Bytes) :
    Option (HeaderA × Bytes) :=
  match input with
  | [] => none
  | b :: rest =>
    if b = 13 then (readNewLine rest).map fun r => (acc, r)
    else if h255 : 255 ≤ count then none
    else
      match readBytesLimited 58 511 rest with
      | none => none
      | some (byts, r1) =>
        let key := headerKeyNormalize (b :: byts.dropLast)
        match skipSpaces r1 with
        | none => none
        | some r2 =>
          match readBytesLimited 13 2048 r2 with
          | none => none
          | some (vb, r3) =>
            match readNewLine r3 with
            | none => none
            | some r4 => headerReadLoop (count + 1) (insertAppend acc key (vb.dropLast)) r4
  termination_by 255 - count
  decreasing_by omega

/-- `Header.read` from `base/header.go` (count starts at 0 on a fresh
map). -/
def headerRead (input : Bytes) : Option (HeaderA × Bytes) :=
  headerReadLoop 0 [] input

/-- Go `string <` (lexicographic byte order), used by `sort.Strings`. -/
def bytesLt : Bytes → Bytes → Bool
  | [], [] => false
  | [], _ :: _ => true
  | _ :: _, [] => false
  | a :: as, b :: bs => if a < b then true else if b < a then false else bytesLt as bs

/-- Insertion step of the model of `sort.Strings`. -/
def insertSorted (x : Bytes) : List Bytes → List Bytes
  | [] => [x]
  | y :: ys => if bytesLt x y then x :: y :: ys else y :: insertSorted x ys

/-- Model of `sort.Strings`: produce the keys in ascending byte order
(insertion sort; `sort.Strings` specifies only the sorted result). -/
def sortBytes (l : List Bytes) : List Bytes := l.foldr insertSorted []

/-- Go `h[key]` on the association list: the value list, `nil` when
absent. -/
def lookupH (h : HeaderA) (k : Bytes) : List Bytes :=
  match h.find? (fun e => e.1 = k) with
  | some e => e.2
  | none => []

/-- `Header.write` from `base/header.go`: build the key slice with
`make([]string, len(h))` followed by `append` — so `len(h)` empty
strings precede the real keys — sort it, then emit `key + ": " + val +
"\r\n"` for every key in order and value in list order, and a final
`"\r\n"`. -/
def headerWrite (h : HeaderA) : Bytes :=
  let keys := List.replicate h.length ([] : Bytes) ++ h.map (fun e => e.1)
  ((sortBytes keys).flatMap fun k =>
    (lookupH h k).flatMap fun v => k ++ strBytes ": " ++ v ++ [13, 10]) ++ [13, 10]


/-- The header lines `key + ": " + val + "\r\n"` of an association list
in its own order (what `Header.write` emits once the sorted key list is
resolved). -/
def hLines (h : HeaderA) : Bytes :=
  h.flatMap fun e => e.2.flatMap fun v => e.1 ++ strBytes ": " ++ v ++ [13, 10]

/-! ## Section 6: pkg/log — the log bus dispatcher (Logger.Start) -/

/-- The three kinds of message the dispatcher loop of `Logger.Start`
can receive, in the order it receives them: a subscribe request, an
unsubscribe request, or a fed log record. Channels are identified by
`Nat`; records carry a `Nat` payload (their content is irrelevant to
delivery). -/
inductive BusAction
  | sub (ch : Nat)
  | unsub (ch : Nat)
  | feed (rec : Nat)
  deriving DecidableEq, Repr

/-- One iteration of the dispatcher loop: `sub` adds the channel to the
subscriber set, `unsub` removes it, `feed` leaves the set unchanged
(delivering the record to every current subscriber). -/
def busStep (subs : List Nat) : BusAction → List Nat
  | .sub ch => if ch ∈ subs then subs else subs ++ [ch]
  | .unsub ch => subs.erase ch
  | .feed _ => subs

/-- The subscriber set after the dispatcher has processed a sequence of
actions (it starts empty: `subs := map[logFeed]struct{}{}`). -/
def busSubsAfter (tr : List BusAction) : List Nat := tr.foldl busStep []

/-- Record `rec` is delivered to channel `ch` at step `i` of the trace:
step `i` is a `feed rec` and `ch` is in the subscriber set built from
the steps before `i` (the dispatcher sends to exactly the current
subscribers). -/
def deliveredAt (tr : List BusAction) (i : Nat) (ch rec : Nat) : Prop :=
  tr.get? i = some (.feed rec) ∧ ch ∈ busSubsAfter (tr.take i)

/-! ## Section 7: aac/adts.go — ADTS decode/encode -/

/-- An ADTS packet (`ADTSPacket` in `aac/adts.go`). -/
structure ADTSPacket where
  typ : Nat
  sampleRate : Nat
  channelCount : Nat
  au : List Nat
  deriving DecidableEq, Repr

/-- Modelled from the spec: the `sampleRates` table of the `aac` package
(declared in a file not among the provided sources); the standard ADTS
sample-rate table referenced by the code's comment, indexed 0..12. -/
def sampleRates : List Nat :=
  [96000, 88200, 64000, 48000, 44100, 32000, 24000, 22050, 16000, 12000, 11025, 8000, 7350]

/-- Modelled from the spec: the `channelCounts` table of the `aac`
package (same missing file); the standard ADTS channel-configuration
table for configurations 1..7. -/
def channelCounts : List Nat := [1, 2, 3, 4, 5, 6, 8]

/-- Modelled from the spec: `MPEG4AudioTypeAACLC = 2` (same missing
file); the only audio type the decoder accepts. -/
def mpeg4AudioTypeAACLC : Nat := 2

/-- The error values of `DecodeADTS`. -/
inductive AdtsErr
  | lengthInvalid
  | syncwordInvalid
  | crcUnsupported
  | typeUnsupported (t : Nat)
  | sampleRateInvalid (i : Nat)
  | channelInvalid (c : Nat)
  | multipleFrames
  | frameLengthInvalid
  deriving DecidableEq, Repr

/-- Outcome of `DecodeADTS`: packets, a returned error, or a runtime
panic (`byts[7 : 7+frameLen]` with `frameLen < 0` is a slice-bounds
panic in Go, which is neither a return value nor an error). -/
inductive DecodeOutcome
  | ok (pkts : List ADTSPacket)
  | err (e : AdtsErr)
  | crash
  deriving DecidableEq, Repr

/-- `DecodeADTS` from `aac/adts.go`. Byte extractions follow the Go
shifts and masks written with `/`, `%` and `*` (the `|`s combine
disjoint bit ranges, so they are additions). `frameLen` is a Go `int`
and may be negative, hence `Int`. -/
def decodeADTS (byts : List Nat) : DecodeOutcome :=
  match hb : byts with
  | [] => .ok []
  | b0 :: tail =>
    if byts.length < 8 then .err .lengthInvalid
    else
      match tail with
      | [] => .err .lengthInvalid
      | b1 :: tail1 =>
        match tail1 with
        | [] => .err .lengthInvalid
        | b2 :: tail2 =>
          match tail2 with
          | [] => .err .lengthInvalid
          | b3 :: tail3 =>
            match tail3 with
            | [] => .err .lengthInvalid
            | b4 :: tail4 =>
              match tail4 with
              | [] => .err .lengthInvalid
              | b5 :: tail5 =>
                match tail5 with
                | [] => .err .lengthInvalid
                | b6 :: tail6 =>
                  let syncWord := b0 * 16 + b1 / 16
                  if syncWord ≠ 0xfff then .err .syncwordInvalid
                  else if b1 % 2 ≠ 1 then .err .crcUnsupported
                  else
                    let typ := b2 / 64 + 1
                    if typ ≠ mpeg4AudioTypeAACLC then .err (.typeUnsupported typ)
                    else
                      let sampleRateIndex := b2 / 4 % 16
                      if h12 : sampleRateIndex ≤ 12 then
                        let sampleRate := sampleRates.getD sampleRateIndex 0
                        let channelConfig := b2 % 2 * 4 + b3 / 64 % 4
                        if hcc : 1 ≤ channelConfig ∧ channelConfig ≤ 7 then
                          let channelCount := channelCounts.getD (channelConfig - 1) 0
                          let frameLen : Int :=
                            (b3 % 4 * 2048 + b4 * 8 + b5 / 32 % 8 : Nat) - 7
                          if b6 % 4 ≠ 0 then .err .multipleFrames
                          else if (tail6.length : Int) < frameLen then .err .frameLengthInvalid
                          else if frameLen < 0 then .crash
                          else
                            let pkt : ADTSPacket :=
                              ⟨typ, sampleRate, channelCount, tail6.take frameLen.toNat⟩
                            match decodeADTS (tail6.drop frameLen.toNat) with
                            | .ok pkts => .ok (pkt :: pkts)
                            | r => r
                        else .err (.channelInvalid channelConfig)
                      else .err (.sampleRateInvalid sampleRateIndex)
  termination_by byts.length
  decreasing_by simp [hb]; omega

/-- The error values of `EncodeADTS`. -/
inductive EncErr
  | sampleRateInvalid (r : Nat)
  | channelCountInvalid (c : Nat)
  deriving DecidableEq, Repr

/-- `EncodeADTS` from `aac/adts.go`: per packet, look up the sample-rate
index and channel configuration (first matching table index), build the
7-byte header (`uint8` casts are `% 256`), and append the AU. The
`fullness` constant is `0x07FF`. -/
def encodeADTS (pkts : List ADTSPacket) : Except EncErr (List Nat) :=
  match pkts with
  | [] => .ok []
  | pkt :: rest =>
    match sampleRates.findIdx? (fun s => s = pkt.sampleRate) with
    | none => .error (.sampleRateInvalid pkt.sampleRate)
    | some sampleRateIndex =>
      match channelCounts.findIdx? (fun co => co = pkt.channelCount) with
      | none => .error (.channelCountInvalid pkt.channelCount)
      | some ci =>
        let channelConfig := ci + 1
        let frameLen := pkt.au.length + 7
        let fullness := 0x07FF
        let header : List Nat :=
          [0xFF, 0xF1,
           ((pkt.typ - 1) * 64 + sampleRateIndex * 4 + channelConfig / 4 % 2) % 256,
           (channelConfig % 4 * 64 + frameLen / 2048 % 4) % 256,
           frameLen / 8 % 256,
           (frameLen % 8 * 32 + fullness / 64 % 32) % 256,
           (fullness % 64 * 4) % 256]
        match encodeADTS rest with
        | .ok bs => .ok (header ++ pkt.au ++ bs)
        | .error e => .error e


/-- A raw ADTS frame, field by field, used to describe the byte streams
`DecodeADTS` walks: protection-absent bit, audio-type bits (profile;
decoded type is `typBits + 1`), sample-rate index, channel
configuration, buffer fullness, frame count, and the ID/layer bits of
the second header byte. The frame-length field is taken well-formed as
`au.length + 7`. -/
structure RawADTS where
  protAbsent : Nat
  typBits : Nat
  srIdx : Nat
  chanCfg : Nat
  fullness : Nat
  frameCount : Nat
  idLayer : Nat
  au : List Nat
  deriving DecidableEq, Repr

/-- The 7-byte ADTS header (followed by the payload) with the given
field values, laid out as `DecodeADTS` reads it: syncword `0xFFF`,
then ID/layer and protection-absent in byte 1, profile/sample-rate/
channel bits in bytes 2–3, the 13-bit frame length across bytes 3–5,
fullness across bytes 5–6 and the frame count in the low bits of
byte 6. -/
def serializeADTS (pa tb si cc fl fu fc il : Nat) (au : List Nat) : List Nat :=
  [255, 240 + il * 2 + pa,
   tb * 64 + si * 4 + cc / 4 % 2,
   cc % 4 * 64 + fl / 2048 % 4,
   fl / 8 % 256,
   fl % 8 * 32 + fu / 64 % 32,
   fu % 64 * 4 + fc] ++ au

/-- Serialization of a raw frame (frame-length field = `au.length + 7`). -/
def serializeRaw (r : RawADTS) : List Nat :=
  serializeADTS r.protAbsent r.typBits r.srIdx r.chanCfg
    (r.au.length + 7) r.fullness r.frameCount r.idLayer r.au

/-- Serialization of a stream of raw frames. -/
def serializeStream (rs : List RawADTS) : List Nat := rs.flatMap serializeRaw

/-- Field ranges making a raw frame a well-formed byte stream the
decoder can walk: bit fields in range, a valid sample rate and channel
configuration, a non-empty payload and a frame length fitting 13 bits. -/
def rawWf (r : RawADTS) : Prop :=
  r.protAbsent ≤ 1 ∧ r.typBits ≤ 3 ∧ r.srIdx ≤ 12 ∧
  1 ≤ r.chanCfg ∧ r.chanCfg ≤ 7 ∧ r.fullness ≤ 2047 ∧ r.frameCount ≤ 3 ∧
  r.idLayer ≤ 7 ∧ 1 ≤ r.au.length ∧ r.au.length + 7 < 8192

instance (r : RawADTS) : Decidable (rawWf r) := by unfold rawWf; infer_instance

/-- The three restrictions of the claim on one frame: CRC absent
(`protection_absent = 1`), a single AAC frame (`frame count = 0`), and
AAC-LC audio (`typBits + 1 = 2`). -/
def rawOK (r : RawADTS) : Prop :=
  r.protAbsent = 1 ∧ r.typBits + 1 = mpeg4AudioTypeAACLC ∧ r.frameCount = 0

instance (r : RawADTS) : Decidable (rawOK r) := by unfold rawOK; infer_instance

/-- The error `DecodeADTS` reports for a frame violating a restriction,
following the order of the checks in the code: CRC first, then audio
type, then frame count. -/
def rawErr (r : RawADTS) : AdtsErr :=
  if r.protAbsent ≠ 1 then .crcUnsupported
  else if r.typBits + 1 ≠ mpeg4AudioTypeAACLC then .typeUnsupported (r.typBits + 1)
  else .multipleFrames

/-- The packet `DecodeADTS` builds from a well-formed, restriction-
satisfying raw frame. -/
def toPkt (r : RawADTS) : ADTSPacket :=
  ⟨mpeg4AudioTypeAACLC, sampleRates.getD r.srIdx 0,
   channelCounts.getD (r.chanCfg - 1) 0, r.au⟩

/-! ## Helper lemmas -/

theorem gsd_error_cases (c : List Char) (n : Nat) (e : FfErr)
    (h : getSegmentDuration c n = .error e) :
    e = .invalidFile ∨ e = .atoiFailed := by
  simp only [getSegmentDuration] at h
  split at h
  · exact Or.inl (by injection h with h; exact h.symm)
  · split at h
    · exact absurd h (by simp)
    · exact Or.inr (by injection h with h; exact h.symm)

theorem maskInner (poly : List (Int × Int)) (y : Nat) :
    ∀ (hh : Nat) (img : Nat × Nat → Bool) (a b : Nat),
      ((List.range hh).foldl
        (fun img x => setPixel img y x (vertexInsidePoly y x poly)) img) (a, b)
      = if a = y ∧ b < hh then vertexInsidePoly y b poly else img (a, b) := by
  intro hh
  induction hh with
  | zero => intro img a b; simp
  | succ m ih =>
    intro img a b
    rw [List.range_succ, List.foldl_append]
    simp only [List.foldl_cons, List.foldl_nil, setPixel]
    rw [ih]
    by_cases hab : (a, b) = (y, m)
    · have h1 : a = y := congrArg Prod.fst hab
      have h2 : b = m := congrArg Prod.snd hab
      rw [if_pos hab, if_pos ⟨h1, by omega⟩, h2]
    · rw [if_neg hab]
      by_cases hc : a = y ∧ b < m
      · rw [if_pos hc, if_pos ⟨hc.1, by omega⟩]
      · have hc2 : ¬ (a = y ∧ b < m + 1) := by
          rintro ⟨rfl, hlt⟩
          have hbm : b ≠ m := fun hbm => hab (by rw [hbm])
          exact hc ⟨rfl, by omega⟩
        rw [if_neg hc, if_neg hc2]

theorem maskOuter (poly : List (Int × Int)) (h : Nat) :
    ∀ (w : Nat) (a b : Nat),
      createMask w h poly (a, b)
      = if a < w ∧ b < h then vertexInsidePoly a b poly else false := by
  intro w
  induction w with
  | zero => intro a b; simp [createMask]
  | succ m ih =>
    intro a b
    simp only [createMask]
    rw [List.range_succ, List.foldl_append]
    simp only [List.foldl_cons, List.foldl_nil]
    rw [maskInner]
    have ihm := ih a b
    simp only [createMask] at ihm
    by_cases hc : a = m ∧ b < h
    · rw [if_pos hc, if_pos ⟨by omega, hc.2⟩, hc.1]
    · rw [if_neg hc, ihm]
      by_cases hd : a < m ∧ b < h
      · rw [if_pos hd, if_pos ⟨by omega, hd.2⟩]
      · rw [if_neg hd, if_neg (by omega : ¬ (a < m + 1 ∧ b < h))]

theorem bus_mem_of_foldl :
    ∀ (tr : List BusAction) (init : List Nat) (ch : Nat),
      ch ∈ tr.foldl busStep init → ch ∈ init ∨ BusAction.sub ch ∈ tr := by
  intro tr
  induction tr with
  | nil => intro init ch h; exact Or.inl (by simpa using h)
  | cons a tr ih =>
    intro init ch h
    rcases ih (busStep init a) ch (by simpa using h) with hin | hsub
    · cases a with
      | sub c =>
        simp only [busStep] at hin
        split at hin
        · exact Or.inl hin
        · rcases List.mem_append.1 hin with h1 | h1
          · exact Or.inl h1
          · simp only [List.mem_singleton] at h1
            subst h1
            exact Or.inr (by simp)
      | unsub c =>
        exact Or.inl (List.mem_of_mem_erase hin)
      | feed r =>
        exact Or.inl hin
    · exact Or.inr (List.mem_cons_of_mem _ hsub)


theorem adts_block (pa tb si cc fu fc il : Nat) (au bs : List Nat)
    (hpa : pa ≤ 1) (htb : tb ≤ 3) (hsi : si ≤ 12) (hcc1 : 1 ≤ cc) (hcc7 : cc ≤ 7)
    (hfu : fu ≤ 2047) (hfc : fc ≤ 3) (hil : il ≤ 7)
    (hau : 1 ≤ au.length) (hlen : au.length + 7 < 8192) :
    decodeADTS (serializeADTS pa tb si cc (au.length + 7) fu fc il au ++ bs) =
      if pa ≠ 1 then .err .crcUnsupported
      else if tb + 1 ≠ mpeg4AudioTypeAACLC then .err (.typeUnsupported (tb + 1))
      else if fc ≠ 0 then .err .multipleFrames
      else match decodeADTS bs with
           | .ok pkts =>
             .ok (⟨2, sampleRates.getD si 0, channelCounts.getD (cc - 1) 0, au⟩ :: pkts)
           | r => r := by
  have hser : serializeADTS pa tb si cc (au.length + 7) fu fc il au ++ bs =
      255 :: (240 + il * 2 + pa) :: (tb * 64 + si * 4 + cc / 4 % 2) ::
      (cc % 4 * 64 + (au.length + 7) / 2048 % 4) :: ((au.length + 7) / 8 % 256) ::
      ((au.length + 7) % 8 * 32 + fu / 64 % 32) :: (fu % 64 * 4 + fc) :: (au ++ bs) := by
    simp [serializeADTS]
  rw [hser, decodeADTS]
  simp only [List.length_cons, List.length_append]
  rw [if_neg (by omega : ¬ (au.length + bs.length + 1 + 1 + 1 + 1 + 1 + 1 + 1 < 8))]
  have e1 : 255 * 16 + (240 + il * 2 + pa) / 16 = 4095 := by omega
  have e2 : (240 + il * 2 + pa) % 2 = pa := by omega
  have e3 : (tb * 64 + si * 4 + cc / 4 % 2) / 64 = tb := by omega
  have e4 : (tb * 64 + si * 4 + cc / 4 % 2) / 4 % 16 = si := by omega
  have e5 : (tb * 64 + si * 4 + cc / 4 % 2) % 2 * 4 +
      (cc % 4 * 64 + (au.length + 7) / 2048 % 4) / 64 % 4 = cc := by omega
  have e6 : (fu % 64 * 4 + fc) % 4 = fc := by omega
  have e7 : (cc % 4 * 64 + (au.length + 7) / 2048 % 4) % 4 * 2048 +
      (au.length + 7) / 8 % 256 * 8 +
      ((au.length + 7) % 8 * 32 + fu / 64 % 32) / 32 % 8 = au.length + 7 := by omega
  rw [e1, e2, e3, e4, e5, e6, e7]
  rw [if_neg (by omega : ¬ (4095 : Nat) ≠ 4095)]
  rw [dif_pos hsi, dif_pos ⟨hcc1, hcc7⟩]
  have e8 : ((au.length + 7 : Nat) : Int) - 7 = (au.length : Int) := by push_cast; ring
  rw [e8]
  rw [if_neg (by push_cast; omega : ¬ ((au.length + bs.length : Nat) : Int) < (au.length : Int))]
  rw [if_neg (by push_cast; omega : ¬ ((au.length : Nat) : Int) < 0)]
  rw [Int.toNat_natCast, List.take_left, List.drop_left]
  by_cases hp : pa ≠ 1
  · rw [if_pos hp, if_pos hp]
  · rw [if_neg hp, if_neg hp]
    by_cases ht : tb + 1 ≠ mpeg4AudioTypeAACLC
    · rw [if_pos ht, if_pos ht]
    · rw [if_neg ht, if_neg ht]
      push_neg at ht
      by_cases hf : fc ≠ 0
      · rw [if_pos hf, if_pos hf]
      · rw [if_neg hf, if_neg hf]
        simp only [mpeg4AudioTypeAACLC] at ht
        rw [ht]


theorem decode_stream_ok :
    ∀ rs : List RawADTS, (∀ r ∈ rs, rawWf r) → (∀ r ∈ rs, rawOK r) →
      decodeADTS (serializeStream rs) = .ok (rs.map toPkt) := by
  intro rs
  induction rs with
  | nil => intro _ _; simp [serializeStream, decodeADTS]
  | cons r rs ih =>
    intro hwf hok
    obtain ⟨w1, w2, w3, w4, w5, w6, w7, w8, w9, w10⟩ := hwf r (List.mem_cons_self r rs)
    obtain ⟨o1, o2, o3⟩ := hok r (List.mem_cons_self r rs)
    have hstream : serializeStream (r :: rs) = serializeRaw r ++ serializeStream rs := by
      simp [serializeStream]
    rw [hstream, serializeRaw,
      adts_block r.protAbsent r.typBits r.srIdx r.chanCfg r.fullness r.frameCount
        r.idLayer r.au (serializeStream rs) w1 w2 w3 w4 w5 w6 w7 w8 w9 w10]
    rw [if_neg (by omega), if_neg (by rw [o2]; exact fun h => h rfl), if_neg (by omega)]
    rw [ih (fun x hx => hwf x (List.mem_cons_of_mem r hx))
        (fun x hx => hok x (List.mem_cons_of_mem r hx))]
    simp [toPkt, mpeg4AudioTypeAACLC]

theorem decode_stream_err :
    ∀ (pre : List RawADTS) (r : RawADTS) (post : List RawADTS),
      (∀ x ∈ pre ++ r :: post, rawWf x) → (∀ x ∈ pre, rawOK x) → ¬ rawOK r →
      decodeADTS (serializeStream (pre ++ r :: post)) = .err (rawErr r) := by
  intro pre
  induction pre with
  | nil =>
    intro r post hwf _ hbad
    obtain ⟨w1, w2, w3, w4, w5, w6, w7, w8, w9, w10⟩ := hwf r (by simp)
    have hstream : serializeStream ([] ++ r :: post)
        = serializeRaw r ++ serializeStream post := by
      simp [serializeStream]
    rw [hstream, serializeRaw,
      adts_block r.protAbsent r.typBits r.srIdx r.chanCfg r.fullness r.frameCount
        r.idLayer r.au (serializeStream post) w1 w2 w3 w4 w5 w6 w7 w8 w9 w10]
    unfold rawOK at hbad
    unfold rawErr
    by_cases hp : r.protAbsent ≠ 1
    · rw [if_pos hp, if_pos hp]
    · rw [if_neg hp, if_neg hp]
      by_cases ht : r.typBits + 1 ≠ mpeg4AudioTypeAACLC
      · rw [if_pos ht, if_pos ht]
      · rw [if_neg ht, if_neg ht]
        push_neg at hp ht
        have hf : r.frameCount ≠ 0 := fun h0 => hbad ⟨hp, ht, h0⟩
        rw [if_pos hf]
  | cons p pre ih =>
    intro r post hwf hok hbad
    obtain ⟨w1, w2, w3, w4, w5, w6, w7, w8, w9, w10⟩ := hwf p (by simp)
    obtain ⟨o1, o2, o3⟩ := hok p (by simp)
    have hstream : serializeStream ((p :: pre) ++ r :: post)
        = serializeRaw p ++ serializeStream (pre ++ r :: post) := by
      simp [serializeStream]
    rw [hstream, serializeRaw,
      adts_block p.protAbsent p.typBits p.srIdx p.chanCfg p.fullness p.frameCount
        p.idLayer p.au (serializeStream (pre ++ r :: post)) w1 w2 w3 w4 w5 w6 w7 w8 w9 w10]
    rw [if_neg (by omega), if_neg (by rw [o2]; exact fun h => h rfl), if_neg (by omega)]
    rw [ih r post (fun x hx => hwf x (by simpa using Or.inr (by simpa using hx)))
        (fun x hx => hok x (List.mem_cons_of_mem p hx)) hbad]

theorem sr_lookup : ∀ rate ∈ sampleRates,
    ∃ i, sampleRates.findIdx? (fun s => s = rate) = some i ∧ i ≤ 12 ∧
      sampleRates.getD i 0 = rate := by
  intro rate h
  fin_cases h
  · exact ⟨0, by decide⟩
  · exact ⟨1, by decide⟩
  · exact ⟨2, by decide⟩
  · exact ⟨3, by decide⟩
  · exact ⟨4, by decide⟩
  · exact ⟨5, by decide⟩
  · exact ⟨6, by decide⟩
  · exact ⟨7, by decide⟩
  · exact ⟨8, by decide⟩
  · exact ⟨9, by decide⟩
  · exact ⟨10, by decide⟩
  · exact ⟨11, by decide⟩
  · exact ⟨12, by decide⟩

theorem ch_lookup : ∀ cnt ∈ channelCounts,
    ∃ ci, channelCounts.findIdx? (fun co => co = cnt) = some ci ∧ ci ≤ 6 ∧
      channelCounts.getD ci 0 = cnt := by
  intro cnt h
  fin_cases h
  · exact ⟨0, by decide⟩
  · exact ⟨1, by decide⟩
  · exact ⟨2, by decide⟩
  · exact ⟨3, by decide⟩
  · exact ⟨4, by decide⟩
  · exact ⟨5, by decide⟩
  · exact ⟨6, by decide⟩

/-! ## Claim theorems -/

/-- Claim C5: a subprocess exit with status 255 makes `process.Start`
return `nil` (normal termination), while any other non-zero exit status
makes it return a non-nil error. -/
theorem claimC5 :
    processStartResult (cmdWaitErr 255) = none ∧
    ∀ s : Nat, s ≠ 0 → s ≠ 255 → ∃ e, processStartResult (cmdWaitErr s) = some e := by
  refine ⟨by decide, ?_⟩
  intro s h0 h255
  refine ⟨s, ?_⟩
  simp [cmdWaitErr, processStartResult, h0, h255]

/-- Witness for C5 at exit status 1. -/
theorem claimC5_wit :
    (1 : Nat) ≠ 0 ∧ (1 : Nat) ≠ 255 ∧ ∃ e, processStartResult (cmdWaitErr 1) = some e :=
  ⟨by decide, by decide, claimC5.2 1 (by decide) (by decide)⟩

/-- Claim C8: when the 30-second timer fires first, `WaitForKeyframe`
returns a zero duration and the dedicated `ErrKeyFrameTimeout` value; no
other outcome of the `select` produces that error value, so it is
distinguishable from all other error returns. -/
theorem claimC8 :
    (∀ n : Nat, waitForKeyframe n .timeout = (0, some .keyFrameTimeout)) ∧
    ∀ (n : Nat) (ev : WaitEvent),
      (waitForKeyframe n ev).2 = some .keyFrameTimeout → ev = .timeout := by
  refine ⟨fun n => rfl, ?_⟩
  intro n ev h
  cases ev with
  | update content =>
    simp only [waitForKeyframe] at h
    split at h
    · exact absurd h (by simp)
    · rename_i e he
      injection h with h
      rcases gsd_error_cases content n e he with rfl | rfl <;> exact absurd h (by decide)
  | watcherError code => exact absurd h (by simp [waitForKeyframe])
  | timeout => rfl
  | ctxDone => exact absurd h (by simp [waitForKeyframe])

/-- Witness for C8 at `nSegments = 2`. -/
theorem claimC8_wit :
    waitForKeyframe 2 .timeout = (0, some .keyFrameTimeout) ∧ WaitEvent.timeout = .timeout :=
  ⟨claimC8.1 2, claimC8.2 2 .timeout rfl⟩

/-- Claim C9: context cancellation makes `WaitForKeyframe` return
`(0, nil)` — not an error — and that result also arises from a
successful zero-duration playlist read, so cancellation is
indistinguishable from a successful zero-duration return. -/
theorem claimC9 :
    (∀ n : Nat, waitForKeyframe n .ctxDone = (0, none)) ∧
    ∃ content, waitForKeyframe 1 (.update content) = (0, none) := by
  refine ⟨fun n => rfl, ⟨strChars "#EXTINF:0.000000,\n0.ts", by decide⟩⟩

/-- Claim C6 (log bus): a record delivered to a channel at step `i` of
the dispatcher trace was preceded by that channel's subscribe request:
subscribers only receive records fed after their subscription was added
to the subscriber set. -/
theorem claimC6 :
    ∀ (tr : List BusAction) (i ch rec : Nat),
      deliveredAt tr i ch rec → ∃ j, j < i ∧ tr.get? j = some (.sub ch) := by
  intro tr i ch rec h
  obtain ⟨-, hmem⟩ := h
  rcases bus_mem_of_foldl (tr.take i) [] ch hmem with h0 | hsub
  · exact absurd h0 (by simp)
  · obtain ⟨j, hj⟩ := List.get_of_mem hsub
    have hlen : j.1 < i := lt_of_lt_of_le j.2 (by simpa using List.length_take_le i tr)
    refine ⟨j.1, hlen, ?_⟩
    have : (tr.take i).get? j.1 = some (.sub ch) := by
      rw [List.get?_eq_get j.2, hj]
    rwa [List.get?_take hlen] at this

/-- Witness for C6: trace `[sub 0, feed 5]`, delivery at step 1. -/
theorem claimC6_wit :
    ∃ j, j < 1 ∧ ([BusAction.sub 0, BusAction.feed 5] : List BusAction).get? j
      = some (.sub 0) :=
  claimC6 [.sub 0, .feed 5] 1 0 5 ⟨by decide, by decide⟩

/-- Counterexample to C4 as stated: for the polygon
`[(0,0),(5,0),(1,2)]` the mask sets pixel `(0,1)` (the code's truncating
integer division computes a crossing at `x = 0`), while the standard
exact-arithmetic ray-cast puts `(0,1)` outside (crossing at `x = 0.5`;
the point lies outside the triangle). -/
theorem claimC4_cex :
    createMask 2 2 [(0, 0), (5, 0), (1, 2)] (0, 1) = true ∧
    rayCastInsideSpec 0 1 [(0, 0), (5, 0), (1, 2)] = false := by decide

/-- Claim C4 (amended): `CreateMask(w, h, poly)` is a pure function of
its arguments and its pixel `(x, y)`, for `x < w`, `y < h`, has alpha
255 exactly when the repository's integer-arithmetic ray-cast
`vertexInsidePoly(x, y, poly)` holds (the loop's swapped variable names
cancel out; the truncating division may disagree with the
exact-arithmetic ray-cast). -/
theorem claimC4 :
    ∀ (w h : Nat) (poly : List (Int × Int)) (px py : Nat),
      px < w → py < h →
      createMask w h poly (px, py) = vertexInsidePoly px py poly := by
  intro w h poly px py hx hy
  rw [maskOuter, if_pos ⟨hx, hy⟩]

/-- Witness for C4 at the counterexample's mask. -/
theorem claimC4_wit :
    createMask 2 2 [(0, 0), (5, 0), (1, 2)] (0, 1)
      = vertexInsidePoly 0 1 [(0, 0), (5, 0), (1, 2)] :=
  claimC4 2 2 [(0, 0), (5, 0), (1, 2)] 0 1 (by decide) (by decide)

/-- Counterexample to C7 as stated: the 8-byte input below has a valid
syncword, `protection_absent = 1`, AAC-LC type, valid sample rate and
channel configuration and `frame count = 0`, but a frame-length field of
0, making `frameLen = 0 - 7 < 0`; `byts[7 : 7+frameLen]` is then a
slice-bounds panic — the call neither returns packets nor an error. -/
theorem claimC7_cex :
    decodeADTS [255, 241, 77, 128, 0, 0, 252, 0] = .crash := by
  rw [decodeADTS]
  norm_num [mpeg4AudioTypeAACLC]

/-- Claim C7 (amended): over well-formed ADTS streams (fields in range,
valid sample-rate index and channel configuration, non-empty payloads,
frame-length field = payload + 7 — in particular at least 7, which rules
out the slice panic): if every frame satisfies the three restrictions
(`protection_absent = 1`, single frame, AAC-LC), `DecodeADTS` returns
the corresponding packets; and if some frame violates one of them, it
returns the error identifying the first violated restriction (in check
order CRC, type, frame count) of the first violating frame. -/
theorem claimC7 :
    ∀ rs : List RawADTS, (∀ r ∈ rs, rawWf r) →
      ((∀ r ∈ rs, rawOK r) → decodeADTS (serializeStream rs) = .ok (rs.map toPkt)) ∧
      (∀ (pre : List RawADTS) (r : RawADTS) (post : List RawADTS),
        rs = pre ++ r :: post → (∀ x ∈ pre, rawOK x) → ¬ rawOK r →
        decodeADTS (serializeStream rs) = .err (rawErr r)) := by
  intro rs hwf
  refine ⟨decode_stream_ok rs hwf, ?_⟩
  intro pre r post hsplit hok hbad
  subst hsplit
  exact decode_stream_err pre r post hwf hok hbad

/-- Witness for C7: a single well-formed AAC-LC frame decodes to its
packet, and a single frame with `protection_absent = 0` yields the CRC
error. -/
theorem claimC7_wit :
    decodeADTS (serializeStream [⟨1, 1, 3, 6, 2047, 0, 0, [9]⟩])
      = .ok (List.map toPkt [⟨1, 1, 3, 6, 2047, 0, 0, [9]⟩]) ∧
    decodeADTS (serializeStream [⟨0, 1, 3, 6, 2047, 0, 0, [9]⟩])
      = .err (rawErr ⟨0, 1, 3, 6, 2047, 0, 0, [9]⟩) :=
  ⟨(claimC7 [⟨1, 1, 3, 6, 2047, 0, 0, [9]⟩] (by decide)).1 (by decide),
   (claimC7 [⟨0, 1, 3, 6, 2047, 0, 0, [9]⟩] (by decide)).2 [] _ []
     rfl (by simp) (by decide)⟩

/-- Counterexample to C10 as stated: a single AAC-LC packet with an
empty AU encodes to a 7-byte stream, which `DecodeADTS` rejects with
the length error (it requires at least 8 bytes), so
`DecodeADTS(EncodeADTS(pkts))` does not return the packets. -/
theorem claimC10_cex :
    encodeADTS [⟨2, 44100, 2, []⟩] = .ok [255, 241, 80, 128, 0, 255, 252] ∧
    decodeADTS [255, 241, 80, 128, 0, 255, 252] = .err .lengthInvalid := by
  refine ⟨rfl, ?_⟩
  rw [decodeADTS]
  norm_num

/-- Claim C10 (amended): for packets with AAC-LC type, a table sample
rate, a table channel count, and a non-empty AU shorter than 8185
bytes, `EncodeADTS` succeeds and `DecodeADTS` of its output returns the
original packets. -/
theorem claimC10 :
    ∀ pkts : List ADTSPacket,
      (∀ p ∈ pkts, p.typ = 2 ∧ p.sampleRate ∈ sampleRates ∧
        p.channelCount ∈ channelCounts ∧ 1 ≤ p.au.length ∧ p.au.length < 8185) →
      ∃ bs, encodeADTS pkts = .ok bs ∧ decodeADTS bs = .ok pkts := by
  intro pkts
  induction pkts with
  | nil => intro _; exact ⟨[], rfl, by rw [decodeADTS]⟩
  | cons p ps ih =>
    intro hyp
    obtain ⟨htyp, hsr, hch, hau1, hau2⟩ := hyp p (List.mem_cons_self p ps)
    obtain ⟨bs, henc, hdec⟩ := ih (fun x hx => hyp x (List.mem_cons_of_mem p hx))
    obtain ⟨i, hfi, hi12, hgd⟩ := sr_lookup p.sampleRate hsr
    obtain ⟨ci, hfc, hci, hgc⟩ := ch_lookup p.channelCount hch
    rcases p with ⟨pt, psr, pcc, pau⟩
    simp only at htyp hgd hgc hau1 hau2 hfi hfc
    subst htyp
    have hbytes : ([255, 241,
        ((2 - 1) * 64 + i * 4 + (ci + 1) / 4 % 2) % 256,
        ((ci + 1) % 4 * 64 + (pau.length + 7) / 2048 % 4) % 256,
        (pau.length + 7) / 8 % 256,
        ((pau.length + 7) % 8 * 32 + 2047 / 64 % 32) % 256,
        (2047 % 64 * 4 % 256)] ++ (pau ++ bs))
        = serializeADTS 1 1 i (ci + 1) (pau.length + 7) 2047 0 0 pau ++ bs := by
      simp only [serializeADTS, List.cons_append, List.nil_append, List.append_assoc,
        List.cons.injEq]
      exact ⟨trivial, trivial, by omega, by omega, trivial, by omega, trivial⟩
    have henc2 : encodeADTS (ADTSPacket.mk 2 psr pcc pau :: ps)
        = .ok (serializeADTS 1 1 i (ci + 1) (pau.length + 7) 2047 0 0 pau ++ bs) := by
      simp only [encodeADTS, hfi, hfc, henc]
      exact congrArg Except.ok hbytes
    refine ⟨_, henc2, ?_⟩
    rw [adts_block 1 1 i (ci + 1) 2047 0 0 pau bs (by omega) (by omega) hi12
      (by omega) (by omega) (by omega) (by omega) (by omega) hau1 (by omega)]
    rw [if_neg (by omega), if_neg (by decide), if_neg (by omega), hdec]
    rw [hgd, show ci + 1 - 1 = ci from rfl, hgc]

/-- Witness for C10: one packet with a one-byte AU round-trips. -/
theorem claimC10_wit :
    ∃ bs, encodeADTS [⟨2, 48000, 2, [7]⟩] = .ok bs ∧
      decodeADTS bs = .ok [⟨2, 48000, 2, [7]⟩] :=
  claimC10 [⟨2, 48000, 2, [7]⟩] (by decide)

theorem isDigit_ne (c x : Char) (hd : c.isDigit = true) (hx : x.isDigit = false) : c ≠ x := by
  intro h
  rw [h, hx] at hd
  exact absurd hd (by decide)

theorem takeWhile_all_append (p : Char → Bool) :
    ∀ (xs : List Char) (y : Char) (r : List Char),
      (∀ c ∈ xs, p c = true) → p y = false →
      (xs ++ y :: r).takeWhile p = xs ∧ (xs ++ y :: r).dropWhile p = y :: r := by
  intro xs
  induction xs with
  | nil => intro y r _ hy; simp [List.takeWhile, List.dropWhile, hy]
  | cons x xs ih =>
    intro y r hall hy
    have hx : p x = true := hall x (by simp)
    have := ih y r (fun c hc => hall c (by simp [hc])) hy
    simp [List.takeWhile, List.dropWhile, hx, this.1, this.2]

theorem takeWhile_all (p : Char → Bool) :
    ∀ (xs : List Char), (∀ c ∈ xs, p c = true) → xs.takeWhile p = xs := by
  intro xs
  induction xs with
  | nil => intro _; rfl
  | cons x xs ih =>
    intro hall
    have hx : p x = true := hall x (by simp)
    simp [List.takeWhile, hx, ih (fun c hc => hall c (by simp [hc]))]

theorem startsWithL_self_append : ∀ (n t : List Char), startsWithL n (n ++ t) = true := by
  intro n
  induction n with
  | nil => intro t; rfl
  | cons c n ih => intro t; simp [startsWithL, ih]

theorem tryScoreAt_none_of_ne (c : Char) (t : List Char) (hc : c ≠ 'l') :
    tryScoreAt (c :: t) = none := by
  have h' : 'l' ≠ c := fun h => hc h.symm
  have : startsWithL (strChars "lavfi") (c :: t) = false := by
    simp [strChars, startsWithL, h']
  simp [tryScoreAt, this]

theorem scoreSearch_none (xs : List Char) (hxs : ∀ c ∈ xs, c ≠ 'l') :
    ∀ (t : List Char), scoreSearch t = none → scoreSearch (xs ++ t) = none := by
  induction xs with
  | nil => intro t h; simpa using h
  | cons c rest ih =>
    intro t h
    have h1 : scoreSearch (rest ++ t) = none := ih (fun x hx => hxs x (by simp [hx])) t h
    have h2 : tryScoreAt (c :: (rest ++ t)) = none :=
      tryScoreAt_none_of_ne c _ (hxs c (by simp))
    simp [scoreSearch, h1, h2]

theorem scoreSearch_append_some (xs ys : List Char) (r : Char × Char × List Char)
    (h : scoreSearch ys = some r) : scoreSearch (xs ++ ys) = some r := by
  induction xs with
  | nil => simpa using h
  | cons c rest ih => simp [scoreSearch, ih]

theorem tryScoreAt_hit (d : Char) (fs : List Char)
    (hd : d.isDigit = true) (hne : fs ≠ []) (hfs : ∀ c ∈ fs, c.isDigit = true) :
    tryScoreAt (strChars "lavfi.scene_score=" ++ d :: '.' :: fs) = some (d, '.', fs) := by
  have hsw1 : startsWithL (strChars "lavfi") (strChars "lavfi.scene_score=" ++ d :: '.' :: fs)
      = true := by
    have : strChars "lavfi.scene_score=" ++ d :: '.' :: fs
        = strChars "lavfi" ++ (strChars ".scene_score=" ++ d :: '.' :: fs) := by
      simp [strChars]
    rw [this, startsWithL_self_append]
  have hsw2 : startsWithL (strChars "scene_score=")
      (strChars "scene_score=" ++ d :: '.' :: fs) = true := startsWithL_self_append _ _
  have hdrop5 : (strChars "lavfi.scene_score=" ++ d :: '.' :: fs).drop 5
      = '.' :: (strChars "scene_score=" ++ d :: '.' :: fs) := by
    simp [strChars]
  have hdrop12 : (strChars "scene_score=" ++ d :: '.' :: fs).drop 12 = d :: '.' :: fs := by
    simp [strChars]
  simp only [tryScoreAt, hsw1, if_true, hdrop5]
  rw [if_neg (by decide : ¬ ('.' : Char) = '\n')]
  simp only [hsw2, if_true, hdrop12]
  rw [if_pos ⟨hd, by decide⟩]
  rw [takeWhile_all Char.isDigit fs hfs]
  cases fs with
  | nil => exact absurd rfl hne
  | cons f fr => rfl

theorem scoreSearch_line (pre2 : List Char) (d : Char) (fs : List Char)
    (hd : d.isDigit = true) (hne : fs ≠ []) (hfs : ∀ c ∈ fs, c.isDigit = true) :
    scoreSearch (pre2 ++ strChars "lavfi.scene_score=" ++ d :: '.' :: fs)
      = some (d, '.', fs) := by
  have hfs_ne : ∀ c ∈ fs, c ≠ 'l' := fun c hc => isDigit_ne c 'l' (hfs c hc) (by decide)
  have h0 : scoreSearch fs = none := by
    have := scoreSearch_none fs hfs_ne [] rfl
    simpa using this
  have hnone : scoreSearch ((strChars "avfi.scene_score=" ++ [d, '.']) ++ fs) = none := by
    refine scoreSearch_none _ ?_ fs h0
    intro c hc
    rcases List.mem_append.1 hc with h1 | h1
    · exact (by decide : ∀ x ∈ strChars "avfi.scene_score=", x ≠ 'l') c h1
    · rcases List.mem_cons.1 h1 with rfl | h2
      · exact isDigit_ne c 'l' hd (by decide)
      · simp only [List.mem_singleton] at h2
        subst h2; decide
  have hdecomp : strChars "lavfi.scene_score=" ++ d :: '.' :: fs
      = 'l' :: ((strChars "avfi.scene_score=" ++ [d, '.']) ++ fs) := by
    simp [strChars]
  have hcons : ∀ (c : Char) (t : List Char), scoreSearch t = none →
      scoreSearch (c :: t) = tryScoreAt (c :: t) := by
    intro c t h
    rw [scoreSearch, h]
  have htail : scoreSearch (strChars "lavfi.scene_score=" ++ d :: '.' :: fs)
      = some (d, '.', fs) := by
    rw [hdecomp, hcons _ _ hnone, ← hdecomp]
    exact tryScoreAt_hit d fs hd hne hfs
  rw [List.append_assoc]
  exact scoreSearch_append_some pre2 _ _ htail

theorem tryIdAt_hit (N line : List Char) (cap : Char × Char × List Char)
    (hN : N ≠ []) (hNd : ∀ c ∈ N, c.isDigit = true)
    (hline : ∀ c ∈ line, c ≠ '\n')
    (hsc : scoreSearch line = some cap) :
    tryIdAt false ('i' :: 'd' :: '=' :: (N ++ '\n' :: line)) = some (N, cap) := by
  have hsw : startsWithL (strChars "id=") ('i' :: 'd' :: '=' :: (N ++ '\n' :: line))
      = true := startsWithL_self_append (strChars "id=") (N ++ '\n' :: line)
  have htd := takeWhile_all_append Char.isDigit N '\n' line hNd (by decide)
  have htw : (line.takeWhile fun c => c ≠ '\n') = line := by
    apply takeWhile_all
    intro c hc
    simpa using hline c hc
  rw [tryIdAt]
  simp only [Bool.false_eq_true, if_false, hsw, if_true, List.drop_succ_cons,
    List.drop_zero, htd.1, htd.2]
  cases N with
  | nil => exact absurd rfl hN
  | cons n0 N' =>
    simp only [htw, hsc]

theorem findIdScore_skip :
    ∀ (junk : List Char) (pw : Bool) (t : List Char),
      hasSub (strChars "id") junk = false →
      (junk = [] → pw = false) →
      (∀ c, junk.getLast? = some c → isWordCh c = false) →
      startsWithL (strChars "d=") t = false →
      findIdScore pw (junk ++ t) = findIdScore false t := by
  intro junk
  induction junk with
  | nil =>
    intro pw t _ hpw _ _
    rw [hpw rfl]
    rfl
  | cons c junk' ih =>
    intro pw t hsub hpw hlast hdt
    have hsub2 : startsWithL (strChars "id") (c :: junk') = false ∧
        hasSub (strChars "id") junk' = false := by
      have := hsub
      rw [hasSub] at this
      exact ⟨by
        cases h1 : startsWithL (strChars "id") (c :: junk') with
        | false => rfl
        | true => rw [h1] at this; exact absurd this (by simp), by
        cases h2 : hasSub (strChars "id") junk' with
        | false => rfl
        | true => rw [h2] at this; exact absurd this (by simp)⟩
    have htry : tryIdAt pw (c :: (junk' ++ t)) = none := by
      cases pw with
      | true => rfl
      | false =>
        rw [tryIdAt]
        have hsw : startsWithL (strChars "id=") (c :: (junk' ++ t)) = false := by
          by_cases hc : c = 'i'
          · subst hc
            cases junk' with
            | nil =>
              have hdt' : startsWithL ['d', '='] t = false := by
                simpa [strChars] using hdt
              simp [startsWithL, strChars, hdt']
            | cons c2 j2 =>
              by_cases hc2 : c2 = 'd'
              · subst hc2
                exact absurd hsub2.1 (by simp [strChars, startsWithL])
              · simp [startsWithL, strChars, Ne.symm hc2]
          · simp [startsWithL, strChars, Ne.symm hc]
        simp [hsw]
    rw [List.cons_append, findIdScore, htry]
    apply ih
    · exact hsub2.2
    · intro hj
      subst hj
      exact hlast c rfl
    · intro c' hc'
      apply hlast
      cases junk' with
      | nil => exact absurd hc' (by simp)
      | cons x xs => rwa [List.getLast?_cons_cons]
    · exact hdt

/-- Claim C3: for every stitched decoder-stderr segment consisting of
leading content (free of the substring `id` and not ending in a word
character), an `id=N` line, and a next line ending in
`lavfi.scene_score=F` with `F = d.ffffff… > 0`, `parseSegment` yields
`(N, 100·F)`, and a trigger event `{End: now + motionDuration}` is
emitted if and only if `100·F` is strictly greater than
`zones[N].Threshold`. Scores are exact rationals (IEEE float64 rounding
idealized away). -/
theorem claimC3 :
    ∀ (junk N pre2 : List Char) (d : Char) (fs : List Char)
      (zones : List MZone) (z : MZone) (now dur : Int),
      hasSub (strChars "id") junk = false →
      (junk.getLast?.all fun c => !isWordCh c) = true →
      N ≠ [] → (∀ c ∈ N, c.isDigit = true) →
      d.isDigit = true → fs ≠ [] → (∀ c ∈ fs, c.isDigit = true) →
      (∀ c ∈ pre2, c ≠ '\n') →
      zones.get? (digitsVal N) = some z →
      (digitVal d ≠ 0 ∨ digitsVal fs ≠ 0) →
      parseSegment (junk ++ 'i' :: 'd' :: '=' :: (N ++ '\n' ::
          (pre2 ++ strChars "lavfi.scene_score=" ++ d :: '.' :: fs)))
        = (digitsVal N,
           ((digitVal d : ℚ) + (digitsVal fs : ℚ) / (10 : ℚ) ^ fs.length) * 100) ∧
      (processSegment zones now dur (junk ++ 'i' :: 'd' :: '=' :: (N ++ '\n' ::
          (pre2 ++ strChars "lavfi.scene_score=" ++ d :: '.' :: fs)))
        = some ⟨now + dur⟩ ↔
          z.threshold < ((digitVal d : ℚ) + (digitsVal fs : ℚ) / (10 : ℚ) ^ fs.length) * 100) := by
  intro junk N pre2 d fs zones z now dur hJ hBb hNne hNd hd hfne hfd hp2 hz hpos
  have hB : ∀ c, junk.getLast? = some c → isWordCh c = false := by
    intro c hc
    rw [hc] at hBb
    simpa using hBb
  have hline : ∀ c ∈ pre2 ++ strChars "lavfi.scene_score=" ++ d :: '.' :: fs, c ≠ '\n' := by
    intro c hc
    rw [List.append_assoc] at hc
    rcases List.mem_append.1 hc with h1 | h1
    · exact hp2 c h1
    · rcases List.mem_append.1 h1 with h2 | h2
      · exact (by decide : ∀ x ∈ strChars "lavfi.scene_score=", x ≠ '\n') c h2
      · rcases List.mem_cons.1 h2 with rfl | h3
        · exact isDigit_ne c '\n' hd (by decide)
        · rcases List.mem_cons.1 h3 with rfl | h4
          · decide
          · exact isDigit_ne c '\n' (hfd c h4) (by decide)
  have hsc := scoreSearch_line pre2 d fs hd hfne hfd
  have htry := tryIdAt_hit N _ (d, '.', fs) hNne hNd hline hsc
  have hfind : findIdScore false (junk ++ 'i' :: 'd' :: '=' :: (N ++ '\n' ::
      (pre2 ++ strChars "lavfi.scene_score=" ++ d :: '.' :: fs)))
      = some (N, (d, '.', fs)) := by
    rw [findIdScore_skip junk false _ hJ (fun _ => rfl) hB
      (by simp [startsWithL, strChars])]
    rw [findIdScore, htry]
  have hfall : fs.all Char.isDigit = true := by
    rw [List.all_eq_true]
    intro c hc
    exact hfd c hc
  have hq : parseFloatQ (d :: '.' :: fs)
      = some ((digitVal d : ℚ) + (digitsVal fs : ℚ) / (10 : ℚ) ^ fs.length) := by
    rw [parseFloatQ]
    rw [if_pos ⟨hd, hfne, hfall⟩]
  have hps : parseSegment (junk ++ 'i' :: 'd' :: '=' :: (N ++ '\n' ::
      (pre2 ++ strChars "lavfi.scene_score=" ++ d :: '.' :: fs)))
      = (digitsVal N,
         ((digitVal d : ℚ) + (digitsVal fs : ℚ) / (10 : ℚ) ^ fs.length) * 100) := by
    simp only [parseSegment, hfind, hq]
  have hqpos : 0 < (digitVal d : ℚ) + (digitsVal fs : ℚ) / (10 : ℚ) ^ fs.length := by
    have h10 : (0 : ℚ) < (10 : ℚ) ^ fs.length := by positivity
    rcases hpos with h | h
    · have hd0 : (0 : ℚ) < (digitVal d : ℚ) := by
        exact_mod_cast Nat.pos_of_ne_zero h
      have : (0 : ℚ) ≤ (digitsVal fs : ℚ) / (10 : ℚ) ^ fs.length := by positivity
      linarith
    · have hf0 : (0 : ℚ) < (digitsVal fs : ℚ) := by
        exact_mod_cast Nat.pos_of_ne_zero h
      have : (0 : ℚ) < (digitsVal fs : ℚ) / (10 : ℚ) ^ fs.length := by positivity
      have hd0 : (0 : ℚ) ≤ (digitVal d : ℚ) := by positivity
      linarith
  have hq100 : ((digitVal d : ℚ) + (digitsVal fs : ℚ) / (10 : ℚ) ^ fs.length) * 100 ≠ 0 := by
    have : 0 < ((digitVal d : ℚ) + (digitsVal fs : ℚ) / (10 : ℚ) ^ fs.length) * 100 := by
      linarith
    exact ne_of_gt this
  refine ⟨hps, ?_⟩
  rw [processSegment, hps]
  rw [shouldTrigger]
  simp only [hq100, if_false, hz]
  by_cases hlt : z.threshold <
      ((digitVal d : ℚ) + (digitsVal fs : ℚ) / (10 : ℚ) ^ fs.length) * 100
  · simp [hlt]
  · simp [hlt]

/-- Witness for C3 at the S5 scenario input: id 0, score `0.084000`,
zone-0 threshold 5; the trigger fires with event end `now + duration`. -/
theorem claimC3_wit :
    parseSegment (strChars "[Parsed_metadata_1 @ 0x] frame:10 pts_time:3.3\n[Parsed_metadata_1 @ 0x] "
        ++ 'i' :: 'd' :: '=' :: (['0'] ++ '\n' ::
          (strChars "[Parsed_metadata_1 @ 0x] " ++ strChars "lavfi.scene_score="
            ++ '0' :: '.' :: strChars "084000")))
      = (digitsVal ['0'],
         ((digitVal '0' : ℚ) + (digitsVal (strChars "084000") : ℚ)
           / (10 : ℚ) ^ (strChars "084000").length) * 100) ∧
    (processSegment [⟨5⟩] 100 7 (strChars "[Parsed_metadata_1 @ 0x] frame:10 pts_time:3.3\n[Parsed_metadata_1 @ 0x] "
        ++ 'i' :: 'd' :: '=' :: (['0'] ++ '\n' ::
          (strChars "[Parsed_metadata_1 @ 0x] " ++ strChars "lavfi.scene_score="
            ++ '0' :: '.' :: strChars "084000")))
      = some ⟨100 + 7⟩ ↔
        (⟨5⟩ : MZone).threshold < ((digitVal '0' : ℚ) + (digitsVal (strChars "084000") : ℚ)
          / (10 : ℚ) ^ (strChars "084000").length) * 100) :=
  claimC3 _ ['0'] _ '0' (strChars "084000") [⟨5⟩] ⟨5⟩ 100 7
    (by decide) (by decide) (by decide) (by decide) (by decide) (by decide)
    (by decide) (by decide) (by decide) (by decide)

theorem char_digit_bounds (c : Char) (h : c.isDigit = true) :
    48 ≤ c.toNat ∧ c.toNat ≤ 57 := by
  simp [Char.isDigit] at h
  exact h

theorem digitVal_le (c : Char) (h : c.isDigit = true) : digitVal c ≤ 9 := by
  obtain ⟨h1, h2⟩ := char_digit_bounds c h
  unfold digitVal
  omega

theorem c1_line (l : List Char) (h : isExtinf6 l) :
    ∃ (pick : List Char) (m : Nat),
      (if l.length = 17 ∧ l.take 8 = "#EXTINF:".data
        then some ((l.drop 8).take 5) else none) = some pick ∧
      extinfMicros l = some m ∧
      atoiInt (pick.filter (fun c => c ≠ '.')) = some ((m / 1000 : Nat) : Int) := by
  obtain ⟨d, f1, f2, f3, f4, f5, f6, hform, hd, h1, h2, h3, h4, h5, h6⟩ := h
  have hl : "#EXTINF:".data ++ [d, '.', f1, f2, f3, f4, f5, f6, ',']
      = ['#', 'E', 'X', 'T', 'I', 'N', 'F', ':', d, '.', f1, f2, f3, f4, f5, f6, ','] := rfl
  rw [hl] at hform
  subst hform
  refine ⟨[d, '.', f1, f2, f3],
    digitVal d * 1000000 + digitsVal [f1, f2, f3, f4, f5, f6], ?_, ?_, ?_⟩
  · rw [if_pos ⟨rfl, rfl⟩]
    simp [List.drop, List.take]
  · rw [extinfMicros, if_pos ?cond]
    case cond =>
      refine ⟨rfl, rfl, ?_, rfl, ?_, rfl⟩
      · simpa using hd
      · simp only [List.drop, List.take, List.all_cons, List.all_nil, hd, h1, h2, h3, h4,
          h5, h6, Bool.and_self, Bool.and_true]
    rfl
  · have hfil : ([d, '.', f1, f2, f3].filter (fun c => c ≠ '.')) = [d, f1, f2, f3] := by
      have hdne : (d ≠ '.') = True := by simp [isDigit_ne d '.' hd (by decide)]
      have hf1 : (f1 ≠ '.') = True := by simp [isDigit_ne f1 '.' h1 (by decide)]
      have hf2 : (f2 ≠ '.') = True := by simp [isDigit_ne f2 '.' h2 (by decide)]
      have hf3 : (f3 ≠ '.') = True := by simp [isDigit_ne f3 '.' h3 (by decide)]
      simp [List.filter, hdne, hf1, hf2, hf3]
    rw [hfil]
    simp only [atoiInt]
    have hdp : ([d, f1, f2, f3].head? = some '+') = False := by
      simp
      exact isDigit_ne d '+' hd (by decide)
    have hdm : ([d, f1, f2, f3].head? = some '-') = False := by
      simp
      exact isDigit_ne d '-' hd (by decide)
    simp only [hdp, hdm, if_false]
    rw [if_pos ⟨by simp, by simp [hd, h1, h2, h3]⟩]
    have hval : digitsVal [d, f1, f2, f3]
        = (digitVal d * 1000000 + digitsVal [f1, f2, f3, f4, f5, f6]) / 1000 := by
      have b0 := digitVal_le d hd
      have b1 := digitVal_le f1 h1
      have b2 := digitVal_le f2 h2
      have b3 := digitVal_le f3 h3
      have b4 := digitVal_le f4 h4
      have b5 := digitVal_le f5 h5
      have b6 := digitVal_le f6 h6
      simp only [digitsVal, List.foldl]
      omega
    rw [hval]
    rfl

theorem extinfMicros_none (l : List Char) (h : l.take 8 ≠ "#EXTINF:".data) :
    extinfMicros l = none := by
  rw [extinfMicros, if_neg]
  intro hc
  exact h hc.1

theorem c1_correspond :
    ∀ lines : List (List Char),
      (∀ l ∈ lines, l.take 8 = "#EXTINF:".data → isExtinf6 l) →
      List.Forall₂
        (fun d5 m => atoiInt (d5.filter (fun c => c ≠ '.')) = some ((m / 1000 : Nat) : Int))
        (lines.filterMap (fun line =>
          if line.length = 17 ∧ line.take 8 = "#EXTINF:".data
          then some ((line.drop 8).take 5) else none))
        (lines.filterMap extinfMicros) := by
  intro lines
  induction lines with
  | nil => intro _; exact List.Forall₂.nil
  | cons l lines ih =>
    intro h
    have ihr := ih (fun x hx hs => h x (List.mem_cons_of_mem l hx) hs)
    by_cases hstart : l.take 8 = "#EXTINF:".data
    · obtain ⟨pick, m, hpick, hmic, hatoi⟩ := c1_line l (h l (List.mem_cons_self l lines) hstart)
      rw [List.filterMap_cons, List.filterMap_cons, hpick, hmic]
      exact List.Forall₂.cons hatoi ihr
    · rw [List.filterMap_cons, List.filterMap_cons,
        if_neg (fun hc => hstart hc.2), extinfMicros_none l hstart]
      exact ihr

theorem c1_sum :
    ∀ (ds : List (List Char)) (ms : List Nat),
      List.Forall₂
        (fun d5 m => atoiInt (d5.filter (fun c => c ≠ '.')) = some ((m / 1000 : Nat) : Int))
        ds ms →
      sumDurations ds = some (((ms.map (fun m => m / 1000)).sum : Nat) : Int) := by
  intro ds ms h
  induction h with
  | nil => simp [sumDurations]
  | cons hr hrest ih =>
    rw [sumDurations, hr, ih]
    simp only [List.map_cons, List.sum_cons]
    push_cast
    ring_nf

/-- Claim C1 (amended): for every playlist whose `#EXTINF` lines all
have the exact form `#EXTINF:d.ffffff,` (one integral digit, six
fractional digits — the only form the 17-byte line filter accepts),
`getSegmentDuration` returns, as a nanosecond duration, 10^6 times the
sum over the last `nSegments` entries of each entry's duration truncated
to whole milliseconds, and returns an error when fewer than `nSegments`
such entries exist. -/
theorem claimC1 :
    ∀ (content : List Char) (n : Nat),
      (∀ l ∈ splitNl (goTrimSpace content), l.take 8 = "#EXTINF:".data → isExtinf6 l) →
      (n ≤ (playlistMicros content).length →
        getSegmentDuration content n = .ok
          (((((playlistMicros content).drop ((playlistMicros content).length - n)).map
            (fun m => m / 1000)).sum : Nat) * 1000000)) ∧
      ((playlistMicros content).length < n →
        getSegmentDuration content n = .error .invalidFile) := by
  intro content n h
  have hF := c1_correspond (splitNl (goTrimSpace content)) h
  have hds : parseDurations content
      = (splitNl (goTrimSpace content)).filterMap (fun line =>
          if line.length = 17 ∧ line.take 8 = "#EXTINF:".data
          then some ((line.drop 8).take 5) else none) := rfl
  have hms : playlistMicros content
      = (splitNl (goTrimSpace content)).filterMap extinfMicros := rfl
  rw [← hds, ← hms] at hF
  have hlen : (parseDurations content).length = (playlistMicros content).length :=
    hF.length_eq
  constructor
  · intro hn
    rw [getSegmentDuration]
    rw [if_neg (by omega)]
    have hdrop := List.forall₂_drop ((parseDurations content).length - n) hF
    rw [hlen] at hdrop
    rw [hlen]
    rw [c1_sum _ _ hdrop]
  · intro hn
    rw [getSegmentDuration]
    rw [if_pos (by omega)]

/-- Counterexample to C1 as stated: for a playlist with two entries of
4.250600 s each and `nSegments = 2`, the code returns 8.5 s (it reads
only the first three fractional digits of each entry), while the sum of
the durations is 8.5012 s — 8501200 µs as a duration, 8501 ms at
millisecond precision — so the result is not the sum of the last two
durations under any millisecond-precision reading. -/
theorem claimC1_cex :
    getSegmentDuration (strChars "#EXTINF:4.250600,\n0.ts\n#EXTINF:4.250600,\n1.ts") 2
      = .ok 8500000000 ∧
    playlistMicros (strChars "#EXTINF:4.250600,\n0.ts\n#EXTINF:4.250600,\n1.ts")
      = [4250600, 4250600] ∧
    (8500000000 : Int) ≠ (4250600 + 4250600) * 1000 ∧
    (8500000000 : Int) ≠ (4250600 + 4250600) / 1000 * 1000000 :=
  ⟨rfl, by decide, by decide, by decide⟩

/-- Witness for C1 on the playlist from the code's own comment. -/
theorem claimC1_wit :
    1 ≤ (playlistMicros (strChars "#EXTINF:4.250000,\n10.ts\n#EXTINF:3.500000,\n11.ts")).length ∧
    getSegmentDuration (strChars "#EXTINF:4.250000,\n10.ts\n#EXTINF:3.500000,\n11.ts") 1
      = .ok 3500000000 := by
  have hyp : ∀ l ∈ splitNl (goTrimSpace
      (strChars "#EXTINF:4.250000,\n10.ts\n#EXTINF:3.500000,\n11.ts")),
      l.take 8 = "#EXTINF:".data → isExtinf6 l := by
    have hsplit : splitNl (goTrimSpace
        (strChars "#EXTINF:4.250000,\n10.ts\n#EXTINF:3.500000,\n11.ts"))
        = [strChars "#EXTINF:4.250000,", strChars "10.ts",
           strChars "#EXTINF:3.500000,", strChars "11.ts"] := by decide
    rw [hsplit]
    intro l hl hstart
    simp only [List.mem_cons, List.not_mem_nil, or_false] at hl
    rcases hl with rfl | rfl | rfl | rfl
    · exact ⟨'4', '2', '5', '0', '0', '0', '0', by decide, by decide, by decide,
        by decide, by decide, by decide, by decide, by decide⟩
    · exact absurd hstart (by decide)
    · exact ⟨'3', '5', '0', '0', '0', '0', '0', by decide, by decide, by decide,
        by decide, by decide, by decide, by decide, by decide⟩
    · exact absurd hstart (by decide)
  exact ⟨by decide, (claimC1 _ 1 hyp).1 (by decide)⟩

theorem bytesLt_irrefl : ∀ a : Bytes, bytesLt a a = false := by
  intro a
  induction a with
  | nil => rfl
  | cons x xs ih => simp [bytesLt, ih]

theorem bytesLt_nil_cons (x : Nat) (xs : Bytes) : bytesLt [] (x :: xs) = true := rfl

theorem insertSorted_le (x : Bytes) :
    ∀ l : List Bytes, (∀ y ∈ l, bytesLt x y = true ∨ x = y) →
      insertSorted x l = x :: l := by
  intro l
  induction l with
  | nil => intro _; rfl
  | cons y ys ih =>
    intro hall
    rcases hall y (by simp) with hlt | heq
    · simp [insertSorted, hlt]
    · subst heq
      rw [insertSorted, if_neg (by simp [bytesLt_irrefl])]
      rw [ih (fun z hz => hall z (by simp [hz]))]

theorem sortBytes_sorted_id :
    ∀ l : List Bytes, l.Pairwise (fun a b => bytesLt a b = true ∨ a = b) →
      sortBytes l = l := by
  intro l
  induction l with
  | nil => intro _; rfl
  | cons x xs ih =>
    intro hp
    rw [List.pairwise_cons] at hp
    show insertSorted x (sortBytes xs) = x :: xs
    rw [ih hp.2, insertSorted_le x xs hp.1]

theorem lookupH_nil_of (h : HeaderA) (hne : ∀ e ∈ h, e.1 ≠ ([] : Bytes)) :
    lookupH h [] = [] := by
  rw [lookupH]
  have : h.find? (fun e => e.1 = ([] : Bytes)) = none := by
    rw [List.find?_eq_none]
    intro e he
    simp [hne e he]
  rw [this]

theorem lookupH_cons_ne (e : Bytes × List Bytes) (rest : HeaderA) (k : Bytes)
    (hne : e.1 ≠ k) : lookupH (e :: rest) k = lookupH rest k := by
  simp [lookupH, List.find?_cons, hne]

theorem lookupH_head (e : Bytes × List Bytes) (rest : HeaderA) :
    lookupH (e :: rest) e.1 = e.2 := by
  simp [lookupH, List.find?_cons]

theorem flatMap_congr_on (f g : Bytes → Bytes) :
    ∀ l : List Bytes, (∀ x ∈ l, f x = g x) → l.flatMap f = l.flatMap g := by
  intro l
  induction l with
  | nil => intro _; rfl
  | cons x xs ih =>
    intro hall
    simp only [List.flatMap_cons]
    rw [hall x (by simp), ih (fun y hy => hall y (by simp [hy]))]

theorem flatMap_replicate_nil (f : Bytes → Bytes) (hf : f [] = []) :
    ∀ n : Nat, (List.replicate n ([] : Bytes)).flatMap f = [] := by
  intro n
  induction n with
  | zero => rfl
  | succ m ih => simp [List.replicate_succ, List.flatMap_cons, hf, ih]

theorem emit_map_fst :
    ∀ h : HeaderA, h.Pairwise (fun a b => bytesLt a.1 b.1 = true) →
      (h.map (fun e => e.1)).flatMap
        (fun k => (lookupH h k).flatMap (fun v => k ++ strBytes ": " ++ v ++ [13, 10]))
      = hLines h := by
  intro h
  induction h with
  | nil => intro _; rfl
  | cons e rest ih =>
    intro hp
    rw [List.pairwise_cons] at hp
    have hcons : hLines (e :: rest)
        = (e.2.flatMap fun v => e.1 ++ strBytes ": " ++ v ++ [13, 10]) ++ hLines rest := by
      simp [hLines]
    rw [hcons]
    simp only [List.map_cons, List.flatMap_cons]
    rw [lookupH_head]
    congr 1
    rw [← ih hp.2]
    apply flatMap_congr_on
    intro k hk
    obtain ⟨b, hb, rfl⟩ := List.mem_map.1 hk
    have hne : e.1 ≠ b.1 := by
      intro heq
      have := hp.1 b hb
      rw [← heq, bytesLt_irrefl] at this
      exact absurd this (by decide)
    rw [lookupH_cons_ne e rest b.1 hne]

theorem headerWrite_eq (h : HeaderA)
    (hsorted : h.Pairwise (fun a b => bytesLt a.1 b.1 = true))
    (hkeys : ∀ e ∈ h, e.1 ≠ []) :
    headerWrite h = hLines h ++ [13, 10] := by
  rw [headerWrite]
  have hsort : sortBytes (List.replicate h.length ([] : Bytes) ++ h.map (fun e => e.1))
      = List.replicate h.length ([] : Bytes) ++ h.map (fun e => e.1) := by
    apply sortBytes_sorted_id
    apply List.pairwise_append.2
    refine ⟨?_, ?_, ?_⟩
    · exact List.pairwise_replicate.2 (Or.inr (Or.inr rfl))
    · rw [List.pairwise_map]
      exact hsorted.imp (fun hab => Or.inl hab)
    · intro x hx y hy
      have hxe : x = [] := List.eq_of_mem_replicate hx
      obtain ⟨b, hb, rfl⟩ := List.mem_map.1 hy
      subst hxe
      have hbne : b.1 ≠ [] := hkeys b hb
      cases hbb : b.1 with
      | nil => exact absurd hbb hbne
      | cons u us => exact Or.inl rfl
  rw [hsort, List.flatMap_append]
  rw [flatMap_replicate_nil _ (by rw [lookupH_nil_of h hkeys]; rfl)]
  rw [List.nil_append, emit_map_fst h hsorted]

theorem rbl_spec (delim : Nat) :
    ∀ (xs : Bytes) (n : Nat) (r : Bytes), delim ∉ xs → xs.length < n →
      readBytesLimited delim n (xs ++ delim :: r) = some (xs ++ [delim], r) := by
  intro xs
  induction xs with
  | nil =>
    intro n r _ hn
    cases n with
    | zero => omega
    | succ m => simp [readBytesLimited]
  | cons x xs ih =>
    intro n r hmem hn
    cases n with
    | zero => omega
    | succ m =>
      have hx : ¬ x = delim := fun he => hmem (by simp [he])
      rw [List.cons_append, readBytesLimited, if_neg hx]
      rw [ih m r (fun hm => hmem (by simp [hm])) (by simpa using hn)]
      rfl

theorem skipSpaces_space (v r : Bytes) (hv : v.head? ≠ some 32) :
    skipSpaces (32 :: (v ++ 13 :: r)) = some (v ++ 13 :: r) := by
  rw [skipSpaces]
  have hdw : (32 :: (v ++ 13 :: r)).dropWhile (fun b => b = 32) = v ++ 13 :: r := by
    rw [List.dropWhile_cons_of_pos (by simp)]
    cases v with
    | nil => simp [List.dropWhile]
    | cons b bs =>
      have hb : ¬ b = 32 := fun he => hv (by simp [he])
      simp [List.dropWhile, hb]
  rw [hdw, if_neg (by simp)]

theorem insertAppend_notmem :
    ∀ (pre : HeaderA) (k : Bytes) (v : Bytes), k ∉ pre.map (fun e => e.1) →
      insertAppend pre k v = pre ++ [(k, [v])] := by
  intro pre
  induction pre with
  | nil => intro k v _; rfl
  | cons e rest ih =>
    intro k v hk
    have hne : ¬ e.1 = k := fun he => hk (by simp [he])
    rw [insertAppend, if_neg hne, ih k v (fun hm => hk (by simp [hm]))]
    rfl

theorem insertAppend_last :
    ∀ (pre : HeaderA) (k : Bytes) (cur : List Bytes) (v : Bytes),
      k ∉ pre.map (fun e => e.1) →
      insertAppend (pre ++ [(k, cur)]) k v = pre ++ [(k, cur ++ [v])] := by
  intro pre
  induction pre with
  | nil => intro k cur v _; simp [insertAppend]
  | cons e rest ih =>
    intro k cur v hk
    have hne : ¬ e.1 = k := fun he => hk (by simp [he])
    rw [List.cons_append, insertAppend, if_neg hne,
      ih k cur v (fun hm => hk (by simp [hm]))]
    rfl

theorem headerRead_line (count : Nat) (acc : HeaderA) (k v tail : Bytes)
    (hcount : count < 255)
    (hk0 : k ≠ []) (hk58 : 58 ∉ k) (hk13 : k.head? ≠ some 13) (hklen : k.length ≤ 511)
    (hv13 : 13 ∉ v) (hv32 : v.head? ≠ some 32) (hvlen : v.length ≤ 2047) :
    headerReadLoop count acc ((k ++ strBytes ": " ++ v ++ [13, 10]) ++ tail)
      = headerReadLoop (count + 1) (insertAppend acc (headerKeyNormalize k) v) tail := by
  cases k with
  | nil => exact absurd rfl hk0
  | cons b kt =>
    have hb13 : ¬ b = 13 := fun he => hk13 (by simp [he])
    have hshape : ((b :: kt) ++ strBytes ": " ++ v ++ [13, 10]) ++ tail
        = b :: (kt ++ 58 :: (32 :: (v ++ 13 :: (10 :: tail)))) := by
      simp [strBytes]
    have hrb1 := rbl_spec 58 kt 511 (32 :: (v ++ 13 :: (10 :: tail)))
      (fun hm => hk58 (by simp [hm])) (by simp at hklen ⊢; omega)
    have hrb2 := rbl_spec 13 v 2048 (10 :: tail) hv13 (by omega)
    have hss := skipSpaces_space v (10 :: tail) hv32
    rw [hshape, headerReadLoop]
    simp only [if_neg hb13, dif_neg (show ¬ 255 ≤ count by omega), hrb1,
      List.dropLast_concat, hss, hrb2, readNewLine]

theorem headerRead_entry :
    ∀ (vs : List Bytes) (k : Bytes) (cur : List Bytes) (pre : HeaderA)
      (count : Nat) (tail : Bytes),
      k ∉ pre.map (fun e => e.1) →
      count + vs.length ≤ 255 →
      k ≠ [] → 58 ∉ k → k.head? ≠ some 13 → headerKeyNormalize k = k → k.length ≤ 511 →
      (∀ v ∈ vs, 13 ∉ v ∧ v.head? ≠ some 32 ∧ v.length ≤ 2047) →
      headerReadLoop count (pre ++ [(k, cur)])
        ((vs.flatMap fun v => k ++ strBytes ": " ++ v ++ [13, 10]) ++ tail)
        = headerReadLoop (count + vs.length) (pre ++ [(k, cur ++ vs)]) tail := by
  intro vs
  induction vs with
  | nil =>
    intro k cur pre count tail _ _ _ _ _ _ _ _
    simp
  | cons v vs ih =>
    intro k cur pre count tail hkpre hcount hk0 hk58 hk13 hknorm hklen hvs
    obtain ⟨hv13, hv32, hvlen⟩ := hvs v (by simp)
    rw [List.flatMap_cons, List.append_assoc]
    rw [headerRead_line count (pre ++ [(k, cur)]) k v _ (by simp at hcount; omega)
      hk0 hk58 hk13 hklen hv13 hv32 hvlen]
    rw [hknorm, insertAppend_last pre k cur v hkpre]
    rw [ih k (cur ++ [v]) pre (count + 1) tail hkpre (by simp at hcount ⊢; omega)
      hk0 hk58 hk13 hknorm hklen (fun x hx => hvs x (by simp [hx]))]
    rw [List.append_assoc]
    simp only [List.singleton_append, List.length_cons]
    ring_nf

theorem headerRead_main :
    ∀ (todo : List (Bytes × List Bytes)) (pre : HeaderA) (count : Nat),
      count + (todo.map (fun e => e.2.length)).sum ≤ 255 →
      (∀ e ∈ todo, e.1 ∉ pre.map (fun x => x.1)) →
      todo.Pairwise (fun a b => a.1 ≠ b.1) →
      (∀ e ∈ todo, e.1 ≠ [] ∧ 58 ∉ e.1 ∧ e.1.head? ≠ some 13 ∧
        headerKeyNormalize e.1 = e.1 ∧ e.1.length ≤ 511 ∧ e.2 ≠ []) →
      (∀ e ∈ todo, ∀ v ∈ e.2, 13 ∉ v ∧ v.head? ≠ some 32 ∧ v.length ≤ 2047) →
      headerReadLoop count pre (hLines todo ++ [13, 10]) = some (pre ++ todo, []) := by
  intro todo
  induction todo with
  | nil =>
    intro pre count _ _ _ _ _
    rw [show hLines [] ++ [13, 10] = (13 :: [10] : Bytes) from rfl, headerReadLoop]
    simp [readNewLine]
  | cons e todo ih =>
    intro pre count hcount hpre hdist hks hvals
    obtain ⟨hk0, hk58, hk13, hknorm, hklen, hvne⟩ := hks e (by simp)
    rcases e with ⟨k, vs⟩
    cases vs with
    | nil => exact absurd rfl hvne
    | cons v1 vrest =>
      obtain ⟨hv13, hv32, hvlen⟩ := hvals ⟨k, v1 :: vrest⟩ (by simp) v1 (by simp)
      have hlines : hLines (⟨k, v1 :: vrest⟩ :: todo) ++ [13, 10]
          = (k ++ strBytes ": " ++ v1 ++ [13, 10]) ++
            (((vrest.flatMap fun v => k ++ strBytes ": " ++ v ++ [13, 10])) ++
              (hLines todo ++ [13, 10])) := by
        simp [hLines]
      rw [hlines]
      have hcount' : (count + (todo.map (fun e => e.2.length)).sum) + (vrest.length + 1)
          ≤ 255 := by
        simp at hcount
        omega
      rw [headerRead_line count pre k v1 _ (by omega) hk0 hk58
        (by simpa using hk13) (by simpa using hklen) hv13 (by simpa using hv32)
        (by simpa using hvlen)]
      rw [hknorm, insertAppend_notmem pre k v1 (by simpa using hpre ⟨k, v1 :: vrest⟩ (by simp))]
      rw [headerRead_entry vrest k [v1] pre (count + 1) _
        (by simpa using hpre ⟨k, v1 :: vrest⟩ (by simp)) (by omega)
        hk0 hk58 (by simpa using hk13) hknorm (by simpa using hklen)
        (fun x hx => hvals ⟨k, v1 :: vrest⟩ (by simp) x (by simp [hx]))]
      rw [List.pairwise_cons] at hdist
      rw [ih (pre ++ [(k, [v1] ++ vrest)]) (count + 1 + vrest.length)
        (by simp at hcount ⊢; omega)
        (by
          intro x hx
          simp only [List.map_append, List.mem_append]
          rintro (hin | hin)
          · exact hpre x (by simp [hx]) hin
          · simp at hin
            exact (hdist.1 x hx) hin.symm)
        hdist.2
        (fun x hx => hks x (by simp [hx]))
        (fun x hx => hvals x (by simp [hx]))]
      rw [List.append_assoc]
      rfl

/-- Claim C2 (amended): for every RTSP header map — represented
canonically as an association list sorted strictly by key — with at most
255 header lines in total (the sum of the value-list lengths), every key
non-empty, at most 511 bytes, free of `:`, not starting with CR, and a
fixed point of `headerKeyNormalize`, every value at most 2047 bytes,
free of CR and not starting with a space, and every value list
non-empty: `Header.read` applied to the output of `Header.write` yields
the original header and consumes the whole input. -/
theorem claimC2 :
    ∀ h : HeaderA,
      h.Pairwise (fun a b => bytesLt a.1 b.1 = true) →
      (∀ e ∈ h, e.1 ≠ [] ∧ 58 ∉ e.1 ∧ e.1.head? ≠ some 13 ∧
        headerKeyNormalize e.1 = e.1 ∧ e.1.length ≤ 511 ∧ e.2 ≠ []) →
      (∀ e ∈ h, ∀ v ∈ e.2, 13 ∉ v ∧ v.head? ≠ some 32 ∧ v.length ≤ 2047) →
      (h.map (fun e => e.2.length)).sum ≤ 255 →
      headerRead (headerWrite h) = some (h, []) := by
  intro h hsorted hks hvals hcount
  rw [headerWrite_eq h hsorted (fun e he => (hks e he).1)]
  rw [headerRead]
  have hdist : h.Pairwise (fun a b => a.1 ≠ b.1) := by
    refine hsorted.imp ?_
    intro a b hab heq
    rw [heq, bytesLt_irrefl] at hab
    exact absurd hab (by decide)
  have hm := headerRead_main h [] 0 (by simpa using hcount) (by simp) hdist hks hvals
  simpa using hm

/-- Counterexample to C2 as stated: the single-entry header
`{"a:b": ["v"]}` satisfies every bound of the claim — one entry, key of
3 ≤ 512 bytes and a fixed point of normalization (`a:b` contains an
invalid header byte, so `CanonicalHeaderKey` returns it unchanged),
value of 1 ≤ 2048 bytes with no CR/LF and no leading space — yet
`read(write(h))` parses the key up to the first `:`, yielding
`{"A": ["b: v"]}` ≠ h. -/
theorem claimC2_cex :
    headerKeyNormalize (strBytes "a:b") = strBytes "a:b" ∧
    ([(strBytes "a:b", [strBytes "v"])] : HeaderA).length ≤ 255 ∧
    (strBytes "a:b").length ≤ 512 ∧ (strBytes "v").length ≤ 2048 ∧
    13 ∉ strBytes "v" ∧ 10 ∉ strBytes "v" ∧ (strBytes "v").head? ≠ some 32 ∧
    headerRead (headerWrite [(strBytes "a:b", [strBytes "v"])])
      = some ([(strBytes "A", [strBytes "b: v"])], []) ∧
    ([(strBytes "A", [strBytes "b: v"])] : HeaderA) ≠ [(strBytes "a:b", [strBytes "v"])] := by
  refine ⟨by decide, by decide, by decide, by decide, by decide, by decide, by decide, ?_, by decide⟩
  have h1 : headerWrite [(strBytes "a:b", [strBytes "v"])]
      = 97 :: (58 :: (98 :: (58 :: (32 :: (118 :: (13 :: (10 :: (13 :: (10 :: []))))))))) := by
    decide
  rw [headerRead, h1, headerReadLoop]
  simp only [if_neg (by decide : ¬ (97 : Nat) = 13), dif_neg (by decide : ¬ (255 : Nat) ≤ 0),
    show readBytesLimited 58 511 (58 :: (98 :: (58 :: (32 :: (118 :: (13 :: (10 :: (13 :: (10 :: [])))))))))
      = some ([58], 98 :: (58 :: (32 :: (118 :: (13 :: (10 :: (13 :: (10 :: [])))))))) from by decide,
    show skipSpaces (98 :: (58 :: (32 :: (118 :: (13 :: (10 :: (13 :: (10 :: []))))))))
      = some (98 :: (58 :: (32 :: (118 :: (13 :: (10 :: (13 :: (10 :: [])))))))) from by decide,
    show readBytesLimited 13 2048 (98 :: (58 :: (32 :: (118 :: (13 :: (10 :: (13 :: (10 :: []))))))))
      = some ([98, 58, 32, 118, 13], 10 :: (13 :: (10 :: []))) from by decide,
    show readNewLine (10 :: (13 :: (10 :: []))) = some (13 :: (10 :: [])) from by decide]
  rw [headerReadLoop]
  simp only [if_pos (by decide : (13 : Nat) = 13),
    show readNewLine (10 :: []) = some ([] : Bytes) from by decide, Option.map_some]
  decide

/-- Witness for C2: a two-entry header round-trips. -/
theorem claimC2_wit :
    headerRead (headerWrite [(strBytes "CSeq", [strBytes "2"]),
      (strBytes "Content-Length", [strBytes "15"])])
      = some ([(strBytes "CSeq", [strBytes "2"]),
        (strBytes "Content-Length", [strBytes "15"])], []) :=
  claimC2 [(strBytes "CSeq", [strBytes "2"]), (strBytes "Content-Length", [strBytes "15"])]
    (by decide) (by decide) (by decide) (by decide)
